import Mathlib

set_option maxRecDepth 4000

/-!
Verification of the `devdox-ai-encryption` Fernet encryption service.

The development shallowly embeds `encryption_src/fernet/service.py`
(`FernetEncryptionHelper`) together with the runtime pieces it relies on:
Python's lenient `base64.urlsafe_b64decode` / `urlsafe_b64encode`, UTF-8
string/byte conversion, and the authenticated token codec / key-derivation
unit that the spec describes (PBKDF2-HMAC over a 256-bit hash driving a
CBC-mode 128-bit block cipher with an HMAC tag, the Fernet construction).

Modelling conventions:
* Python strings are lists of Unicode scalar values (`List Nat`); bytes are
  naturals below 256.
* Randomness (`os.urandom(16)`) and the clock are injected as explicit
  `iv` / `ts` arguments of the encryption operations.
* Python exceptions become an `Except PyRrr`-style result with an error
  enumeration `PyErr`.
* The third-party `cryptography` primitives (SHA-256, AES) are not
  repository code; where a definition models them it carries a
  `Modelled from the spec:` comment and keeps every structural parameter
  the source or the spec fixes (key split, token layout, iteration count,
  output lengths, base64 wrapping).
-/

namespace DevdoxEncryption

/-- Code points of a Lean string literal, used to write concrete Python
strings in statements. -/
def str (s : String) : List Nat :=
  s.data.map Char.toNat

/-! ## UTF-8 (Python `str.encode()` / `bytes.decode()`)

Models CPython's UTF-8 codec restricted to Unicode scalar values: the
encoder is total on scalar sequences and the strict decoder rejects
malformed, overlong, surrogate and out-of-range sequences. -/

/-- A Unicode scalar value: a code point outside the surrogate range. -/
def isScalar (c : Nat) : Bool :=
  decide (c < 0x110000) && (decide (c < 0xD800) || decide (0xE000 ≤ c))

/-- UTF-8 encoding of one code point (1–4 bytes). -/
def utf8EncodeChar (c : Nat) : List Nat :=
  if c < 0x80 then [c]
  else if c < 0x800 then [0xC0 + c / 64, 0x80 + c % 64]
  else if c < 0x10000 then [0xE0 + c / 4096, 0x80 + c / 64 % 64, 0x80 + c % 64]
  else [0xF0 + c / 262144, 0x80 + c / 4096 % 64, 0x80 + c / 64 % 64, 0x80 + c % 64]

/-- Python `str.encode("utf-8")` on a scalar-value string. -/
def utf8Encode (s : List Nat) : List Nat :=
  (s.map utf8EncodeChar).flatten

/-- A UTF-8 continuation byte. -/
def isCont (b : Nat) : Bool :=
  decide (0x80 ≤ b) && decide (b < 0xC0)

/-- One step of the strict UTF-8 decoder: parse one character (rejecting
malformed, overlong, surrogate and out-of-range sequences) and return it
with the remaining bytes. -/
def utf8DecodeStep (l : List Nat) : Option (Nat × List Nat) :=
  match l with
  | [] => none
  | b :: bs =>
    if b < 0x80 then some (b, bs)
    else if b < 0xC2 then none
    else if b < 0xE0 then
      match bs with
      | b1 :: bs1 =>
        if isCont b1 then some ((b - 0xC0) * 64 + (b1 - 0x80), bs1) else none
      | [] => none
    else if b < 0xF0 then
      match bs with
      | b1 :: b2 :: bs2 =>
        let c := (b - 0xE0) * 4096 + (b1 - 0x80) * 64 + (b2 - 0x80)
        if isCont b1 && isCont b2 && decide (0x800 ≤ c) && isScalar c then
          some (c, bs2)
        else none
      | _ => none
    else if b < 0xF5 then
      match bs with
      | b1 :: b2 :: b3 :: bs3 =>
        let c := (b - 0xF0) * 262144 + (b1 - 0x80) * 4096 + (b2 - 0x80) * 64 + (b3 - 0x80)
        if isCont b1 && isCont b2 && isCont b3 && decide (0x10000 ≤ c) && decide (c < 0x110000) then
          some (c, bs3)
        else none
      | _ => none
    else none

/-- The decoder loop; each step consumes at least one byte, so a fuel of
the input length is enough. -/
def utf8DecodeLoop : Nat → List Nat → Option (List Nat)
  | _, [] => some []
  | 0, _ :: _ => none
  | fuel + 1, b :: bs =>
    match utf8DecodeStep (b :: bs) with
    | none => none
    | some (c, rest) => (utf8DecodeLoop fuel rest).map (c :: ·)

/-- Python `bytes.decode("utf-8")` (strict). -/
def utf8Decode (l : List Nat) : Option (List Nat) :=
  utf8DecodeLoop l.length l

/-! ## URL-safe base64 (Python `base64.urlsafe_b64encode` / `urlsafe_b64decode`)

`urlsafe_b64decode` translates `-`/`_` to `+`/`/` and calls
`binascii.a2b_base64` in non-strict mode, whose CPython semantics are:
characters outside the (translated) alphabet are silently discarded; a pad
character completing a quad ends the decode, ignoring the rest of the
input; leftover data characters at the end of input are an error
(`binascii.Error`). -/

/-- The URL-safe base64 alphabet. -/
def b64CharOfDigit (d : Nat) : Nat :=
  if d < 26 then 65 + d
  else if d < 52 then 97 + (d - 26)
  else if d < 62 then 48 + (d - 52)
  else if d = 62 then 45
  else 95

/-- Digit value of a byte under `urlsafe_b64decode`: the standard alphabet
plus `-`/`_` (the pre-translated URL-safe pair). -/
def b64DigitOfChar (c : Nat) : Option Nat :=
  if 65 ≤ c ∧ c ≤ 90 then some (c - 65)
  else if 97 ≤ c ∧ c ≤ 122 then some (26 + (c - 97))
  else if 48 ≤ c ∧ c ≤ 57 then some (52 + (c - 48))
  else if c = 43 ∨ c = 45 then some 62
  else if c = 47 ∨ c = 95 then some 63
  else none

/-- `base64.urlsafe_b64encode` (with padding). -/
def b64urlEncode : List Nat → List Nat
  | [] => []
  | [x] => [b64CharOfDigit (x / 4), b64CharOfDigit (x % 4 * 16), 61, 61]
  | [x, y] => [b64CharOfDigit (x / 4), b64CharOfDigit (x % 4 * 16 + y / 16),
               b64CharOfDigit (y % 16 * 4), 61]
  | x :: y :: z :: rest =>
      b64CharOfDigit (x / 4) :: b64CharOfDigit (x % 4 * 16 + y / 16) ::
      b64CharOfDigit (y % 16 * 4 + z / 64) :: b64CharOfDigit (z % 64) ::
      b64urlEncode rest

/-- The quad state machine of CPython's non-strict `binascii.a2b_base64`:
`qp` is the position in the current quad, `lc` the pending bits, `pads`
the count of pad characters seen since the last data character. -/
def a2bGo : List Nat → Nat → Nat → Nat → Option (List Nat)
  | [], qp, _, _ => if qp = 0 then some [] else none
  | c :: rest, qp, lc, pads =>
    if c = 61 then
      if 2 ≤ qp then
        if 4 ≤ qp + pads + 1 then some []
        else a2bGo rest qp lc (pads + 1)
      else a2bGo rest qp lc pads
    else
      match b64DigitOfChar c with
      | none => a2bGo rest qp lc pads
      | some d =>
        match qp with
        | 0 => a2bGo rest 1 d 0
        | 1 => (a2bGo rest 2 (d % 16) 0).map ((lc * 4 + d / 16) :: ·)
        | 2 => (a2bGo rest 3 (d % 4) 0).map ((lc * 16 + d / 4) :: ·)
        | _ => (a2bGo rest 0 0 0).map ((lc * 64 + d) :: ·)

/-- `base64.urlsafe_b64decode`; `none` is `binascii.Error`. -/
def urlsafeB64decode (bs : List Nat) : Option (List Nat) :=
  a2bGo bs 0 0 0

/-! ## Errors

The exception types reachable from the service.  `MissingEncryptionKeyError`
lives in `encryption_src.base.exceptions`, which is not under `src/`;
modelled from the spec: "fails with `MissingKeyError` at construction time
... when the Secret is empty or absent". -/

/-- Python exceptions raised by the embedded operations. -/
inductive PyErr where
  | missingEncryptionKeyError : PyErr
  | valueError : PyErr
  | binasciiError : PyErr
  | invalidToken : PyErr
  | unicodeDecodeError : PyErr
deriving DecidableEq

/-- Decidable equality of call results, for concrete evaluation. -/
instance exceptDecEq {ε α : Type} [DecidableEq ε] [DecidableEq α] :
    DecidableEq (Except ε α) := fun a b =>
  match a, b with
  | .error e, .error e' =>
    if h : e = e' then .isTrue (by rw [h]) else .isFalse (by intro hc; cases hc; exact h rfl)
  | .error _, .ok _ => .isFalse (by intro hc; cases hc)
  | .ok _, .error _ => .isFalse (by intro hc; cases hc)
  | .ok v, .ok v' =>
    if h : v = v' then .isTrue (by rw [h]) else .isFalse (by intro hc; cases hc; exact h rfl)

/-! ## Modelled hash / HMAC (Authenticated Token Codec, spec §4.2)

Modelled from the spec: "a message authentication code (HMAC with a
256-bit hash)".  SHA-256 itself is third-party code; the model keeps the
HMAC shape (key absorbed into distinct inner and outer states, inner hash
of the message fed to the outer state) over a 256-bit mixing state, and a
32-byte tag. -/

/-- Modulus of the modelled 256-bit hash state. -/
def HMOD : Nat := 2 ^ 256

/-- Absorb a byte list into a 256-bit state (modelled compression). -/
def absorbBytes (acc : Nat) (bs : List Nat) : Nat :=
  bs.foldl (fun a b => (a * 257 + (b + 1)) % HMOD) acc

/-- Mix one wide word into the state and scramble nonlinearly. -/
def mixWord (acc w : Nat) : Nat :=
  let t := (acc + w * 257 + 1) % HMOD
  (t ^^^ (t / 2 ^ 131)) % HMOD

/-- Big-endian 32-byte image of a 256-bit state. -/
def natToBytes32 (n : Nat) : List Nat :=
  (List.range 32).map fun i => n / 256 ^ (31 - i) % 256

/-- Modelled from the spec: the 32-byte `HMAC-hash256(key, msg)` tag. -/
def hmacBytes (key msg : List Nat) : List Nat :=
  natToBytes32 (mixWord (absorbBytes 0x5c key) (absorbBytes (absorbBytes 0x36 key) msg))

/-! ## Modelled PBKDF2 (Key Derivation Unit, spec §4.1)

Modelled from the spec: "apply a password-based key-derivation function
using HMAC with a 256-bit hash function, with the long-term secret as the
password and the caller's salt as the salt parameter, iterated a fixed,
large round count (≥ 100,000) ... and output exactly 32 bytes".  The
source (`service.py`, `_derive_key`) fixes
`PBKDF2HMAC(algorithm=SHA256, length=32, salt=salt, iterations=100000)`.
The PBKDF2 recurrence `U_{j+1} = PRF(password, U_j)`, XOR-accumulated over
exactly 100000 rounds for the single 32-byte output block, is embedded
with the modelled PRF; the password is pre-absorbed into the inner/outer
HMAC states `ki`/`ko` once, as real HMAC-based PBKDF2 implementations do. -/

/-- One PRF application `HMAC(password, U_j)` on a 256-bit block. -/
def hmacStep (ki ko u : Nat) : Nat :=
  mixWord ko (mixWord ki u)

/-- PBKDF2 accumulation loop: `u` is the current `U_j`, `acc` the XOR of
all blocks produced so far.  Marked irreducible: no proof evaluates the
100000-round loop, and unfolding it during definitional-equality checks
is intractable. -/
@[irreducible] def pbkdf2Loop (ki ko : Nat) : Nat → Nat → Nat → Nat
  | 0, _, acc => acc
  | n + 1, u, acc =>
    let u' := hmacStep ki ko u
    pbkdf2Loop ki ko n u' (acc ^^^ u')

/-- Fixed iteration count used by `_derive_key` in the source. -/
def pbkdf2Iterations : Nat := 100000

/-- `PBKDF2HMAC(SHA256, length=32, salt, 100000).derive(password)`:
`U_1 = PRF(password, salt ‖ INT(1))`, then 99999 further rounds, XOR of
all rounds, 32 bytes out. -/
def pbkdf2Raw (password salt : List Nat) : List Nat :=
  let ki := absorbBytes 0x36 password
  let ko := absorbBytes 0x5c password
  let u1 := mixWord ko (absorbBytes ki (salt ++ [0, 0, 0, 1]))
  natToBytes32 (pbkdf2Loop ki ko (pbkdf2Iterations - 1) u1 u1)

/-! ## Modelled block cipher and CBC mode (spec §4.2)

Modelled from the spec: "Encrypt the padded plaintext with a 128-bit block
cipher in CBC mode using the cipher subkey and the IV".  The concrete
cipher (AES-128) is third-party code; the model is a per-byte keyed
bijection on 16-byte blocks.  CBC chaining, PKCS#7 padding and the
16-byte block structure are embedded exactly. -/

/-- Modelled 128-bit block cipher, encryption direction. -/
def blockEnc (key block : List Nat) : List Nat :=
  List.zipWith (fun b k => (b + k) % 256) block key

/-- Modelled 128-bit block cipher, decryption direction. -/
def blockDec (key block : List Nat) : List Nat :=
  List.zipWith (fun b k => (b + 256 - k % 256) % 256) block key

/-- Byte-wise XOR of two blocks. -/
def xorBlock (a b : List Nat) : List Nat :=
  List.zipWith (fun x y => x ^^^ y) a b

/-- CBC encryption over a block list; `prev` starts as the IV. -/
def cbcEncBlocks (key : List Nat) : List Nat → List (List Nat) → List (List Nat)
  | _, [] => []
  | prev, b :: bs =>
    let c := blockEnc key (xorBlock b prev)
    c :: cbcEncBlocks key c bs

/-- CBC decryption over a block list; `prev` starts as the IV. -/
def cbcDecBlocks (key : List Nat) : List Nat → List (List Nat) → List (List Nat)
  | _, [] => []
  | prev, c :: cs =>
    xorBlock (blockDec key c) prev :: cbcDecBlocks key c cs

/-- Split a byte string into 16-byte chunks (the last chunk may be short
if the length is not a multiple of 16). -/
def chunk16 (bs : List Nat) : List (List Nat) :=
  match bs with
  | [] => []
  | b :: rest => (b :: rest).take 16 :: chunk16 ((b :: rest).drop 16)
termination_by bs.length
decreasing_by simp; omega

/-- PKCS#7 padding to a multiple of 16 bytes. -/
def pkcs7Pad (bs : List Nat) : List Nat :=
  bs ++ List.replicate (16 - bs.length % 16) (16 - bs.length % 16)

/-- PKCS#7 unpadding; `none` is the invalid-padding failure. -/
def pkcs7Unpad (bs : List Nat) : Option (List Nat) :=
  match bs.getLast? with
  | none => none
  | some k =>
    if 1 ≤ k ∧ k ≤ 16 ∧ k ≤ bs.length ∧ (bs.drop (bs.length - k)).all (fun b => b = k) then
      some (bs.take (bs.length - k))
    else none

/-! ## Modelled Fernet codec (`cryptography.fernet.Fernet`)

Modelled from the spec (§4.2, §6): token =
`base64url(0x80 ‖ timestamp(8B, big-endian) ‖ IV(16B) ‖ ciphertext ‖ HMAC(32B))`,
key = 32 bytes split into a 16-byte MAC subkey (first half) and a 16-byte
cipher subkey (second half); decoding fails closed with `InvalidToken` on
base64 failure, bad version byte, short data, MAC mismatch, bad ciphertext
length or bad padding. -/

/-- First half of the 32-byte key: the MAC subkey. -/
def fernetSigningKey (k : List Nat) : List Nat :=
  k.take 16

/-- Second half of the 32-byte key: the cipher subkey. -/
def fernetEncryptionKey (k : List Nat) : List Nat :=
  k.drop 16

/-- 8-byte big-endian timestamp field. -/
def ts8 (ts : Nat) : List Nat :=
  (List.range 8).map fun i => ts / 256 ^ (7 - i) % 256

/-- The unsigned token payload `0x80 ‖ ts ‖ IV ‖ ciphertext`. -/
def fernetPayload (k iv : List Nat) (ts : Nat) (ptBytes : List Nat) : List Nat :=
  128 :: (ts8 ts ++ iv ++ (cbcEncBlocks (fernetEncryptionKey k) iv (chunk16 (pkcs7Pad ptBytes))).flatten)

/-- `Fernet._encrypt_from_parts`: payload plus its HMAC tag, base64url
encoded. -/
def fernetEncryptBytes (k iv : List Nat) (ts : Nat) (ptBytes : List Nat) : List Nat :=
  let payload := fernetPayload k iv ts ptBytes
  b64urlEncode (payload ++ hmacBytes (fernetSigningKey k) payload)

/-- `Fernet.decrypt` on token bytes (with `ttl=None`, so no age check). -/
def fernetDecryptBytes (k tok : List Nat) : Except PyErr (List Nat) :=
  match urlsafeB64decode tok with
  | none => .error .invalidToken
  | some data =>
    match data with
    | [] => .error .invalidToken
    | d0 :: _ =>
      if d0 ≠ 128 then .error .invalidToken
      else if data.length < 9 then .error .invalidToken
      else
        let payload := data.take (data.length - 32)
        let tag := data.drop (data.length - 32)
        if hmacBytes (fernetSigningKey k) payload ≠ tag then .error .invalidToken
        else
          let iv := (data.drop 9).take 16
          let ct := payload.drop 25
          if ct.length % 16 ≠ 0 then .error .invalidToken
          else
            match pkcs7Unpad ((cbcDecBlocks (fernetEncryptionKey k) iv (chunk16 ct)).flatten) with
            | none => .error .invalidToken
            | some pt => .ok pt

/-- `Fernet.__init__` key validation on a bytes key: lenient base64
decode, then the decoded key must be exactly 32 bytes; `ValueError`
otherwise. -/
def fernetKeyBytes (key : List Nat) : Except PyErr (List Nat) :=
  match urlsafeB64decode key with
  | none => .error .valueError
  | some kb => if kb.length = 32 then .ok kb else .error .valueError

/-- `Fernet.__init__` on a `str` key: `base64.urlsafe_b64decode` first
ASCII-encodes a string argument (`ValueError` on non-ASCII), then
validates as for bytes. -/
def fernetKeyOfStr (key : List Nat) : Except PyErr (List Nat) :=
  if key.all (fun c => c < 128) then fernetKeyBytes key else .error .valueError

/-! ## The service (`encryption_src/fernet/service.py`) -/

/-- `FernetEncryptionHelper`: holds only the constructor-supplied secret. -/
structure FernetEncryptionHelper where
  secret_key : List Nat
deriving DecidableEq

/-- `FernetEncryptionHelper.__init__`: `if not secret_key: raise
MissingEncryptionKeyError(...)`; an absent (`None`) or empty secret is
falsy. -/
def mkFernetEncryptionHelper (secret_key : Option (List Nat)) :
    Except PyErr FernetEncryptionHelper :=
  match secret_key with
  | none => .error .missingEncryptionKeyError
  | some s => if s.isEmpty then .error .missingEncryptionKeyError else .ok ⟨s⟩

/-- `FernetEncryptionHelper.encrypt`:
`Fernet(self.secret_key).encrypt(plaintext.encode()).decode()`, with the
per-call random IV and clock reading as explicit arguments. -/
def encrypt (h : FernetEncryptionHelper) (iv : List Nat) (ts : Nat)
    (plaintext : List Nat) : Except PyErr (List Nat) :=
  match fernetKeyOfStr h.secret_key with
  | .error e => .error e
  | .ok k =>
    match utf8Decode (fernetEncryptBytes k iv ts (utf8Encode plaintext)) with
    | none => .error .unicodeDecodeError
    | some t => .ok t

/-- `FernetEncryptionHelper.decrypt`:
`Fernet(self.secret_key).decrypt(encrypted_text.encode()).decode()`. -/
def decrypt (h : FernetEncryptionHelper) (encrypted_text : List Nat) :
    Except PyErr (List Nat) :=
  match fernetKeyOfStr h.secret_key with
  | .error e => .error e
  | .ok k =>
    match fernetDecryptBytes k (utf8Encode encrypted_text) with
    | .error e => .error e
    | .ok pt =>
      match utf8Decode pt with
      | none => .error .unicodeDecodeError
      | some s => .ok s

/-- `FernetEncryptionHelper._derive_key`: PBKDF2 on
`self.secret_key.encode()` with the caller's salt bytes, URL-safe base64
encoded (the argument here is the already-encoded secret). -/
def deriveKey (secretBytes salt : List Nat) : List Nat :=
  b64urlEncode (pbkdf2Raw secretBytes salt)

/-- `bytes.decode()` on a result byte string (`UnicodeDecodeError` when
the bytes are not valid UTF-8). -/
def strOfUtf8 (bs : List Nat) : Except PyErr (List Nat) :=
  match utf8Decode bs with
  | none => .error .unicodeDecodeError
  | some s => .ok s

/-- Propagate a failed `Fernet(...)` construction, or run the cipher
operation with the validated key (exception propagation of the
constructor call inside `encrypt_for_user` / `decrypt_for_user`). -/
def withKeyResult (kres : Except PyErr (List Nat))
    (op : List Nat → Except PyErr (List Nat)) : Except PyErr (List Nat) :=
  match kres with
  | .error e => .error e
  | .ok k => op k

/-- Propagate a failed `cipher.decrypt(...)`, or convert the recovered
plaintext bytes to a string. -/
def withDecrypted (res : Except PyErr (List Nat)) : Except PyErr (List Nat) :=
  match res with
  | .error e => .error e
  | .ok pt => strOfUtf8 pt

/-- `encrypt_for_user` after the salt has been decoded: build
`Fernet(self._derive_key(salt_bytes))` and encrypt
(`cipher.encrypt(plaintext.encode()).decode()`). -/
def userEncryptWithSalt (h : FernetEncryptionHelper) (plaintext salt_bytes iv : List Nat)
    (ts : Nat) : Except PyErr (List Nat) :=
  withKeyResult (fernetKeyBytes (deriveKey (utf8Encode h.secret_key) salt_bytes))
    (fun k => strOfUtf8 (fernetEncryptBytes k iv ts (utf8Encode plaintext)))

/-- `decrypt_for_user` after the salt has been decoded: build
`Fernet(self._derive_key(salt_bytes))` and decrypt
(`cipher.decrypt(encrypted_text.encode()).decode()`). -/
def userDecryptWithSalt (h : FernetEncryptionHelper) (encrypted_text salt_bytes : List Nat) :
    Except PyErr (List Nat) :=
  withKeyResult (fernetKeyBytes (deriveKey (utf8Encode h.secret_key) salt_bytes))
    (fun k => withDecrypted (fernetDecryptBytes k (utf8Encode encrypted_text)))

/-- `FernetEncryptionHelper.encrypt_for_user`: decode the salt
(`base64.urlsafe_b64decode(salt_b64.encode())`), then derive a key and
encrypt under it. -/
def encryptForUser (h : FernetEncryptionHelper) (plaintext salt_b64 : List Nat)
    (iv : List Nat) (ts : Nat) : Except PyErr (List Nat) :=
  match urlsafeB64decode (utf8Encode salt_b64) with
  | none => .error .binasciiError
  | some salt_bytes => userEncryptWithSalt h plaintext salt_bytes iv ts

/-- `FernetEncryptionHelper.decrypt_for_user`: decode the salt, then
derive a key and decrypt under it. -/
def decryptForUser (h : FernetEncryptionHelper) (encrypted_text salt_b64 : List Nat) :
    Except PyErr (List Nat) :=
  match urlsafeB64decode (utf8Encode salt_b64) with
  | none => .error .binasciiError
  | some salt_bytes => userDecryptWithSalt h encrypted_text salt_bytes

/-! ## Method-call embedding for the frame claim

The source methods never assign to `self` outside `__init__`; the
state-passing embedding makes the implicit `self` threading explicit so
that "the call leaves the instance unchanged" is statable. -/

/-- `encrypt` as a state-passing method call. -/
def encryptCall (h : FernetEncryptionHelper) (iv : List Nat) (ts : Nat)
    (plaintext : List Nat) : Except PyErr (List Nat) × FernetEncryptionHelper :=
  (encrypt h iv ts plaintext, h)

/-- `decrypt` as a state-passing method call. -/
def decryptCall (h : FernetEncryptionHelper) (encrypted_text : List Nat) :
    Except PyErr (List Nat) × FernetEncryptionHelper :=
  (decrypt h encrypted_text, h)

/-- `encrypt_for_user` as a state-passing method call. -/
def encryptForUserCall (h : FernetEncryptionHelper) (plaintext salt_b64 : List Nat)
    (iv : List Nat) (ts : Nat) : Except PyErr (List Nat) × FernetEncryptionHelper :=
  (encryptForUser h plaintext salt_b64 iv ts, h)

/-- `decrypt_for_user` as a state-passing method call. -/
def decryptForUserCall (h : FernetEncryptionHelper) (encrypted_text salt_b64 : List Nat) :
    Except PyErr (List Nat) × FernetEncryptionHelper :=
  (decryptForUser h encrypted_text salt_b64, h)

/-- `_derive_key` as a state-passing method call. -/
def deriveKeyCall (h : FernetEncryptionHelper) (salt : List Nat) :
    List Nat × FernetEncryptionHelper :=
  (deriveKey (utf8Encode h.secret_key) salt, h)

/-- The all-zero 16-byte IV used as a concrete random draw in witnesses. -/
def iv0 : List Nat :=
  List.replicate 16 0

/-! # Theorems

First the supporting lemma layers (UTF-8, base64, padding, CBC, the
Fernet codec, the service), then one theorem per claim, with witnesses. -/

/-! ## UTF-8 lemmas -/

/-- The step decoder parses exactly the encoding of a scalar value. -/
theorem utf8DecodeStep_encodeChar (c : Nat) (h : isScalar c = true) (bs : List Nat) :
    utf8DecodeStep (utf8EncodeChar c ++ bs) = some (c, bs) := by
  simp only [isScalar, Bool.and_eq_true, Bool.or_eq_true, decide_eq_true_eq] at h
  by_cases h1 : c < 0x80
  · simp [utf8EncodeChar, h1, utf8DecodeStep]
  · by_cases h2 : c < 0x800
    · have e1 : utf8EncodeChar c = [0xC0 + c / 64, 0x80 + c % 64] := by
        simp [utf8EncodeChar, h1, h2]
      rw [e1]
      show utf8DecodeStep (_ :: _ :: bs) = _
      have g4 : isCont (0x80 + c % 64) = true := by
        simp only [isCont, Bool.and_eq_true, decide_eq_true_eq]; omega
      have g5 : (0xC0 + c / 64 - 0xC0) * 64 + (0x80 + c % 64 - 0x80) = c := by omega
      simp only [utf8DecodeStep, g4]
      rw [if_neg (by omega), if_neg (by omega), if_pos (by omega)]
      simp
      omega
    · by_cases h3 : c < 0x10000
      · have e1 : utf8EncodeChar c =
            [0xE0 + c / 4096, 0x80 + c / 64 % 64, 0x80 + c % 64] := by
          simp [utf8EncodeChar, h1, h2, h3]
        rw [e1]
        show utf8DecodeStep (_ :: _ :: _ :: bs) = _
        have g5 : (0xE0 + c / 4096 - 0xE0) * 4096 + (0x80 + c / 64 % 64 - 0x80) * 64 +
            (0x80 + c % 64 - 0x80) = c := by omega
        have g6 : isCont (0x80 + c / 64 % 64) = true := by
          simp only [isCont, Bool.and_eq_true, decide_eq_true_eq]; omega
        have g7 : isCont (0x80 + c % 64) = true := by
          simp only [isCont, Bool.and_eq_true, decide_eq_true_eq]; omega
        have g8 : isScalar c = true := by
          simp only [isScalar, Bool.and_eq_true, Bool.or_eq_true, decide_eq_true_eq]
          omega
        simp only [utf8DecodeStep]
        rw [if_neg (by omega), if_neg (by omega), if_neg (by omega), if_pos (by omega)]
        simp only [g5, g6, g7, g8]
        rw [if_pos (by simp; omega)]
      · have e1 : utf8EncodeChar c =
            [0xF0 + c / 262144, 0x80 + c / 4096 % 64, 0x80 + c / 64 % 64, 0x80 + c % 64] := by
          simp [utf8EncodeChar, h1, h2, h3]
        rw [e1]
        show utf8DecodeStep (_ :: _ :: _ :: _ :: bs) = _
        have hlt : c < 0x110000 := by omega
        have g6 : (0xF0 + c / 262144 - 0xF0) * 262144 + (0x80 + c / 4096 % 64 - 0x80) * 4096 +
            (0x80 + c / 64 % 64 - 0x80) * 64 + (0x80 + c % 64 - 0x80) = c := by omega
        have g7 : isCont (0x80 + c / 4096 % 64) = true := by
          simp only [isCont, Bool.and_eq_true, decide_eq_true_eq]; omega
        have g8 : isCont (0x80 + c / 64 % 64) = true := by
          simp only [isCont, Bool.and_eq_true, decide_eq_true_eq]; omega
        have g9 : isCont (0x80 + c % 64) = true := by
          simp only [isCont, Bool.and_eq_true, decide_eq_true_eq]; omega
        simp only [utf8DecodeStep]
        rw [if_neg (by omega), if_neg (by omega), if_neg (by omega), if_neg (by omega),
          if_pos (by omega)]
        simp only [g6, g7, g8, g9]
        rw [if_pos (by simp; omega)]

/-- A successful step consumes at least one byte. -/
theorem utf8DecodeStep_length (l : List Nat) (c : Nat) (rest : List Nat)
    (h : utf8DecodeStep l = some (c, rest)) : rest.length < l.length := by
  match l with
  | [] => simp [utf8DecodeStep] at h
  | b :: bs =>
    simp only [utf8DecodeStep] at h
    split at h
    · cases h; simp
    · split at h
      · exact absurd h (by simp)
      · split at h
        · match bs with
          | [] => exact absurd h (by simp)
          | b1 :: bs1 =>
            simp only at h
            split at h
            · cases h; simp; omega
            · exact absurd h (by simp)
        · split at h
          · match bs with
            | [] => exact absurd h (by simp)
            | [b1] => exact absurd h (by simp)
            | b1 :: b2 :: bs2 =>
              simp only at h
              split at h
              · cases h; simp; omega
              · exact absurd h (by simp)
          · split at h
            · match bs with
              | [] => exact absurd h (by simp)
              | [b1] => exact absurd h (by simp)
              | [b1, b2] => exact absurd h (by simp)
              | b1 :: b2 :: b3 :: bs3 =>
                simp only at h
                split at h
                · cases h; simp; omega
                · exact absurd h (by simp)
            · exact absurd h (by simp)

/-- The loop result does not depend on the fuel, as long as the fuel
covers the input length. -/
theorem utf8DecodeLoop_congr (f1 : Nat) : ∀ f2 l, List.length l ≤ f1 → List.length l ≤ f2 →
    utf8DecodeLoop f1 l = utf8DecodeLoop f2 l := by
  induction f1 with
  | zero =>
    intro f2 l h1 _
    have : l = [] := by
      cases l with
      | nil => rfl
      | cons a as => simp at h1
    subst this
    cases f2 <;> rfl
  | succ g1 ih =>
    intro f2 l h1 h2
    cases l with
    | nil => cases f2 <;> rfl
    | cons b bs =>
      cases f2 with
      | zero => simp at h2
      | succ g2 =>
        show (match utf8DecodeStep (b :: bs) with
          | none => none
          | some (c, rest) => (utf8DecodeLoop g1 rest).map (c :: ·)) =
          (match utf8DecodeStep (b :: bs) with
          | none => none
          | some (c, rest) => (utf8DecodeLoop g2 rest).map (c :: ·))
        cases hstep : utf8DecodeStep (b :: bs) with
        | none => rfl
        | some pr =>
          obtain ⟨c, rest⟩ := pr
          have hlen := utf8DecodeStep_length _ _ _ hstep
          simp only [List.length_cons] at h1 h2 hlen
          simp only
          rw [ih g2 rest (by omega) (by omega)]

/-- Decoding after the encoding of one scalar continues with the rest. -/
theorem utf8Decode_encodeChar (c : Nat) (h : isScalar c = true) (bs : List Nat) :
    utf8Decode (utf8EncodeChar c ++ bs) = (utf8Decode bs).map (c :: ·) := by
  have hne : utf8EncodeChar c ≠ [] := by
    by_cases h1 : c < 0x80
    · simp [utf8EncodeChar, h1]
    · by_cases h2 : c < 0x800
      · simp [utf8EncodeChar, h1, h2]
      · by_cases h3 : c < 0x10000 <;> simp [utf8EncodeChar, h1, h2, h3]
  cases hE : utf8EncodeChar c with
  | nil => exact absurd hE hne
  | cons e0 etl =>
    have hsplit : utf8EncodeChar c ++ bs = e0 :: (etl ++ bs) := by rw [hE]; rfl
    show utf8DecodeLoop ((etl ++ bs).length + 1) (e0 :: (etl ++ bs)) = _
    show (match utf8DecodeStep (e0 :: (etl ++ bs)) with
      | none => none
      | some (cc, r) => (utf8DecodeLoop (etl ++ bs).length r).map (cc :: ·)) = _
    have hstep : utf8DecodeStep (e0 :: (etl ++ bs)) = some (c, bs) := by
      rw [← hsplit]
      exact utf8DecodeStep_encodeChar c h bs
    rw [hstep]
    simp only
    rw [utf8DecodeLoop_congr (etl ++ bs).length bs.length bs (by simp) (le_refl _)]
    rfl

/-- UTF-8 decoding inverts encoding on scalar-value strings. -/
theorem utf8Decode_utf8Encode (s : List Nat) (h : ∀ c ∈ s, isScalar c = true) :
    utf8Decode (utf8Encode s) = some s := by
  induction s with
  | nil => rfl
  | cons c cs ih =>
    have hc : isScalar c = true := h c (by simp)
    have hrest : utf8Decode (utf8Encode cs) = some cs := ih (fun x hx => h x (by simp [hx]))
    have e : utf8Encode (c :: cs) = utf8EncodeChar c ++ utf8Encode cs := rfl
    rw [e, utf8Decode_encodeChar c hc, hrest]
    rfl

/-- Encoding an ASCII string is the identity on code units. -/
theorem utf8Encode_ascii (s : List Nat) (h : ∀ c ∈ s, c < 128) :
    utf8Encode s = s := by
  induction s with
  | nil => rfl
  | cons c cs ih =>
    have hc : c < 128 := h c (by simp)
    show (utf8EncodeChar c :: cs.map utf8EncodeChar).flatten = _
    rw [List.flatten_cons]
    show utf8EncodeChar c ++ utf8Encode cs = _
    rw [ih (fun x hx => h x (by simp [hx]))]
    simp [utf8EncodeChar, hc]

/-- Decoding an ASCII byte string is the identity. -/
theorem utf8Decode_ascii (bs : List Nat) (h : ∀ b ∈ bs, b < 128) :
    utf8Decode bs = some bs := by
  induction bs with
  | nil => rfl
  | cons b rest ih =>
    have hb : b < 128 := h b (by simp)
    show utf8DecodeLoop (rest.length + 1) (b :: rest) = _
    show (match utf8DecodeStep (b :: rest) with
      | none => none
      | some (cc, r) => (utf8DecodeLoop rest.length r).map (cc :: ·)) = _
    have hstep : utf8DecodeStep (b :: rest) = some (b, rest) := by
      simp [utf8DecodeStep, hb]
    rw [hstep]
    simp only
    rw [show utf8DecodeLoop rest.length rest = utf8Decode rest from rfl,
      ih (fun x hx => h x (by simp [hx]))]
    rfl

/-- ASCII code points are scalar values. -/
theorem isScalar_of_ascii (c : Nat) (h : c < 128) : isScalar c = true := by
  simp only [isScalar, Bool.and_eq_true, Bool.or_eq_true, decide_eq_true_eq]
  omega

/-- UTF-8 encoded output of a scalar-value string consists of bytes. -/
theorem utf8Encode_lt_256 (s : List Nat) (hs : ∀ c ∈ s, isScalar c = true) :
    ∀ b ∈ utf8Encode s, b < 256 := by
  induction s with
  | nil => simp [utf8Encode]
  | cons c cs ih =>
    intro b hb
    have hsc : isScalar c = true := hs c (by simp)
    have hc : c < 0x110000 := by
      simp only [isScalar, Bool.and_eq_true, Bool.or_eq_true, decide_eq_true_eq] at hsc
      omega
    have hsplit : b ∈ utf8EncodeChar c ∨ b ∈ utf8Encode cs := by
      have : b ∈ utf8EncodeChar c ++ utf8Encode cs := by
        have e : utf8Encode (c :: cs) = utf8EncodeChar c ++ utf8Encode cs := rfl
        rw [← e]; exact hb
      simpa using this
    rcases hsplit with h1 | h2
    · by_cases c1 : c < 0x80
      · simp [utf8EncodeChar, c1] at h1; omega
      · by_cases c2 : c < 0x800
        · simp [utf8EncodeChar, c1, c2] at h1
          rcases h1 with h | h <;> omega
        · by_cases c3 : c < 0x10000
          · simp [utf8EncodeChar, c1, c2, c3] at h1
            rcases h1 with h | h | h <;> omega
          · simp [utf8EncodeChar, c1, c2, c3] at h1
            rcases h1 with h | h | h | h <;> omega
    · exact ih (fun x hx => hs x (by simp [hx])) b h2

/-! ## Base64 lemmas -/

/-- The decoder's digit table inverts the encoder's alphabet. -/
theorem b64_digit_char : ∀ d, d < 64 → b64DigitOfChar (b64CharOfDigit d) = some d := by
  decide

/-- Alphabet characters are not the pad character. -/
theorem b64CharOfDigit_ne_pad : ∀ d, d < 64 → b64CharOfDigit d ≠ 61 := by
  decide

/-- Every character the encoder can emit is ASCII. -/
theorem b64CharOfDigit_lt_128 (d : Nat) : b64CharOfDigit d < 128 := by
  unfold b64CharOfDigit
  split_ifs <;> omega

/-- A digit value is below 64. -/
theorem b64DigitOfChar_lt (c d : Nat) (h : b64DigitOfChar c = some d) : d < 64 := by
  unfold b64DigitOfChar at h
  split_ifs at h <;> simp at h <;> omega

/-- Encoded output is ASCII. -/
theorem b64urlEncode_lt_128 (bs : List Nat) : ∀ c ∈ b64urlEncode bs, c < 128 := by
  induction bs using b64urlEncode.induct with
  | case1 => simp [b64urlEncode]
  | case2 x =>
    intro c hc
    simp only [b64urlEncode, List.mem_cons, List.not_mem_nil, or_false] at hc
    rcases hc with rfl | rfl | rfl | rfl
    · exact b64CharOfDigit_lt_128 _
    · exact b64CharOfDigit_lt_128 _
    · norm_num
    · norm_num
  | case3 x y =>
    intro c hc
    simp only [b64urlEncode, List.mem_cons, List.not_mem_nil, or_false] at hc
    rcases hc with rfl | rfl | rfl | rfl
    · exact b64CharOfDigit_lt_128 _
    · exact b64CharOfDigit_lt_128 _
    · exact b64CharOfDigit_lt_128 _
    · norm_num
  | case4 x y z rest ih =>
    intro c hc
    simp only [b64urlEncode, List.mem_cons] at hc
    rcases hc with rfl | rfl | rfl | rfl | hmem
    · exact b64CharOfDigit_lt_128 _
    · exact b64CharOfDigit_lt_128 _
    · exact b64CharOfDigit_lt_128 _
    · exact b64CharOfDigit_lt_128 _
    · exact ih c hmem

/-- Stepping the quad machine with a data character from position 0. -/
theorem a2bGo_data0 (c x : Nat) (rest : List Nat) (lc pads : Nat)
    (h : b64DigitOfChar c = some x) :
    a2bGo (c :: rest) 0 lc pads = a2bGo rest 1 x 0 := by
  have hne : c ≠ 61 := by intro he; subst he; simp [b64DigitOfChar] at h
  rw [a2bGo]
  simp [hne, h]

/-- Stepping the quad machine with a data character from position 1. -/
theorem a2bGo_data1 (c x : Nat) (rest : List Nat) (lc pads : Nat)
    (h : b64DigitOfChar c = some x) :
    a2bGo (c :: rest) 1 lc pads = (a2bGo rest 2 (x % 16) 0).map ((lc * 4 + x / 16) :: ·) := by
  have hne : c ≠ 61 := by intro he; subst he; simp [b64DigitOfChar] at h
  rw [a2bGo]
  simp [hne, h]

/-- Stepping the quad machine with a data character from position 2. -/
theorem a2bGo_data2 (c x : Nat) (rest : List Nat) (lc pads : Nat)
    (h : b64DigitOfChar c = some x) :
    a2bGo (c :: rest) 2 lc pads = (a2bGo rest 3 (x % 4) 0).map ((lc * 16 + x / 4) :: ·) := by
  have hne : c ≠ 61 := by intro he; subst he; simp [b64DigitOfChar] at h
  rw [a2bGo]
  simp [hne, h]

/-- Stepping the quad machine with a data character from position 3. -/
theorem a2bGo_data3 (c x : Nat) (rest : List Nat) (lc pads : Nat)
    (h : b64DigitOfChar c = some x) :
    a2bGo (c :: rest) 3 lc pads = (a2bGo rest 0 0 0).map ((lc * 64 + x) :: ·) := by
  have hne : c ≠ 61 := by intro he; subst he; simp [b64DigitOfChar] at h
  rw [a2bGo]
  simp [hne, h]

/-- A pad character that does not yet complete a quad. -/
theorem a2bGo_pad_more (rest : List Nat) (qp lc pads : Nat) (h2 : 2 ≤ qp)
    (h4 : qp + pads + 1 < 4) :
    a2bGo (61 :: rest) qp lc pads = a2bGo rest qp lc (pads + 1) := by
  rw [a2bGo]
  have g : ¬ (4 ≤ qp + pads + 1) := by omega
  simp [h2, g]

/-- A pad character that completes a quad ends the decode. -/
theorem a2bGo_pad_done (rest : List Nat) (qp lc pads : Nat) (h2 : 2 ≤ qp)
    (h4 : 4 ≤ qp + pads + 1) :
    a2bGo (61 :: rest) qp lc pads = some [] := by
  rw [a2bGo]
  simp [h2, h4]

/-- Non-strict base64 decoding inverts URL-safe encoding of bytes. -/
theorem urlsafeB64decode_encode (bs : List Nat) (h : ∀ b ∈ bs, b < 256) :
    urlsafeB64decode (b64urlEncode bs) = some bs := by
  show a2bGo (b64urlEncode bs) 0 0 0 = some bs
  induction bs using b64urlEncode.induct with
  | case1 => rfl
  | case2 x =>
    have hx : x < 256 := h x (by simp)
    show a2bGo (b64CharOfDigit (x / 4) :: b64CharOfDigit (x % 4 * 16) :: 61 :: 61 :: []) 0 0 0 = _
    rw [a2bGo_data0 _ _ _ _ _ (b64_digit_char (x / 4) (by omega)),
      a2bGo_data1 _ _ _ _ _ (b64_digit_char (x % 4 * 16) (by omega))]
    have e1 : x % 4 * 16 % 16 = 0 := by omega
    have e2 : x / 4 * 4 + x % 4 * 16 / 16 = x := by omega
    rw [e1, e2, a2bGo_pad_more _ _ _ _ (by omega) (by omega),
      a2bGo_pad_done _ _ _ _ (by omega) (by omega)]
    rfl
  | case3 x y =>
    have hx : x < 256 := h x (by simp)
    have hy : y < 256 := h y (by simp)
    show a2bGo (b64CharOfDigit (x / 4) :: b64CharOfDigit (x % 4 * 16 + y / 16) ::
      b64CharOfDigit (y % 16 * 4) :: 61 :: []) 0 0 0 = _
    rw [a2bGo_data0 _ _ _ _ _ (b64_digit_char (x / 4) (by omega)),
      a2bGo_data1 _ _ _ _ _ (b64_digit_char (x % 4 * 16 + y / 16) (by omega)),
      a2bGo_data2 _ _ _ _ _ (b64_digit_char (y % 16 * 4) (by omega))]
    have e1 : (x % 4 * 16 + y / 16) % 16 = y / 16 := by omega
    have e2 : x / 4 * 4 + (x % 4 * 16 + y / 16) / 16 = x := by omega
    have e3 : y % 16 * 4 % 4 = 0 := by omega
    have e4 : y / 16 * 16 + y % 16 * 4 / 4 = y := by omega
    rw [e1, e2, e3, e4, a2bGo_pad_done _ _ _ _ (by omega) (by omega)]
    rfl
  | case4 x y z rest ih =>
    have hx : x < 256 := h x (by simp)
    have hy : y < 256 := h y (by simp)
    have hz : z < 256 := h z (by simp)
    have hrest : ∀ b ∈ rest, b < 256 := fun b hb => h b (by simp [hb])
    show a2bGo (b64CharOfDigit (x / 4) :: b64CharOfDigit (x % 4 * 16 + y / 16) ::
      b64CharOfDigit (y % 16 * 4 + z / 64) :: b64CharOfDigit (z % 64) ::
      b64urlEncode rest) 0 0 0 = _
    rw [a2bGo_data0 _ _ _ _ _ (b64_digit_char (x / 4) (by omega)),
      a2bGo_data1 _ _ _ _ _ (b64_digit_char (x % 4 * 16 + y / 16) (by omega)),
      a2bGo_data2 _ _ _ _ _ (b64_digit_char (y % 16 * 4 + z / 64) (by omega)),
      a2bGo_data3 _ _ _ _ _ (b64_digit_char (z % 64) (by omega))]
    have e1 : (x % 4 * 16 + y / 16) % 16 = y / 16 := by omega
    have e2 : x / 4 * 4 + (x % 4 * 16 + y / 16) / 16 = x := by omega
    have e3 : (y % 16 * 4 + z / 64) % 4 = z / 64 := by omega
    have e4 : y / 16 * 16 + (y % 16 * 4 + z / 64) / 4 = y := by omega
    have e5 : z / 64 * 64 + z % 64 = z := by omega
    rw [e1, e2, e3, e4, e5, ih hrest]
    rfl

/-- Decoded base64 output consists of bytes. -/
theorem a2bGo_lt_256 (l : List Nat) : ∀ qp lc pads out,
    (qp = 1 → lc < 64) → (qp = 2 → lc < 16) → (3 ≤ qp → lc < 4) →
    a2bGo l qp lc pads = some out → ∀ b ∈ out, b < 256 := by
  induction l with
  | nil =>
    intro qp lc pads out _ _ _ hout
    rw [a2bGo] at hout
    split_ifs at hout
    · cases hout; simp
  | cons c rest ih =>
    intro qp lc pads out h1 h2 h3 hout
    rw [a2bGo] at hout
    by_cases hc : c = 61
    · rw [if_pos hc] at hout
      split_ifs at hout with g1 g2
      · cases hout; simp
      · exact ih qp lc (pads + 1) out h1 h2 h3 hout
      · exact ih qp lc pads out h1 h2 h3 hout
    · rw [if_neg hc] at hout
      cases hd : b64DigitOfChar c with
      | none => rw [hd] at hout; exact ih qp lc pads out h1 h2 h3 hout
      | some d =>
        have hdlt : d < 64 := b64DigitOfChar_lt c d hd
        rw [hd] at hout
        match qp with
        | 0 =>
          exact ih 1 d 0 out (fun _ => hdlt) (by omega) (by omega) hout
        | 1 =>
          simp only at hout
          cases hrec : a2bGo rest 2 (d % 16) 0 with
          | none => rw [hrec] at hout; cases hout
          | some out' =>
            rw [hrec] at hout
            cases hout
            intro b hb
            rcases List.mem_cons.mp hb with hb | hb
            · have hlc : lc < 64 := h1 rfl
              omega
            · exact ih 2 (d % 16) 0 out' (by omega) (fun _ => by omega) (by omega) hrec b hb
        | 2 =>
          simp only at hout
          cases hrec : a2bGo rest 3 (d % 4) 0 with
          | none => rw [hrec] at hout; cases hout
          | some out' =>
            rw [hrec] at hout
            cases hout
            intro b hb
            rcases List.mem_cons.mp hb with hb | hb
            · have hlc : lc < 16 := h2 rfl
              omega
            · exact ih 3 (d % 4) 0 out' (by omega) (by omega) (fun _ => by omega) hrec b hb
        | (n + 3) =>
          simp only at hout
          cases hrec : a2bGo rest 0 0 0 with
          | none => rw [hrec] at hout; cases hout
          | some out' =>
            rw [hrec] at hout
            cases hout
            intro b hb
            rcases List.mem_cons.mp hb with hb | hb
            · have hlc : lc < 4 := h3 (by omega)
              omega
            · exact ih 0 0 0 out' (by omega) (by omega) (by omega) hrec b hb

/-- Decoded base64 bytes are below 256. -/
theorem urlsafeB64decode_lt_256 (l out : List Nat) (h : urlsafeB64decode l = some out) :
    ∀ b ∈ out, b < 256 :=
  a2bGo_lt_256 l 0 0 0 out (by omega) (by omega) (by omega) h

/-- URL-safe base64 encoding is injective on byte strings. -/
theorem b64urlEncode_inj (a b : List Nat) (ha : ∀ x ∈ a, x < 256) (hb : ∀ x ∈ b, x < 256)
    (h : b64urlEncode a = b64urlEncode b) : a = b := by
  have e1 := urlsafeB64decode_encode a ha
  have e2 := urlsafeB64decode_encode b hb
  rw [h, e2] at e1
  exact (Option.some.inj e1).symm

/-! ## PKCS#7 lemmas -/

/-- Padding reaches a multiple of the block size. -/
theorem pkcs7Pad_length (bs : List Nat) :
    (pkcs7Pad bs).length = bs.length + (16 - bs.length % 16) := by
  simp [pkcs7Pad]

/-- Padded length is a multiple of 16. -/
theorem pkcs7Pad_length_mod (bs : List Nat) : (pkcs7Pad bs).length % 16 = 0 := by
  rw [pkcs7Pad_length]
  have := Nat.mod_lt bs.length (show 0 < 16 by norm_num)
  omega

/-- Padding bytes stay below 256. -/
theorem pkcs7Pad_lt_256 (bs : List Nat) (h : ∀ b ∈ bs, b < 256) :
    ∀ b ∈ pkcs7Pad bs, b < 256 := by
  intro b hb
  rcases List.mem_append.mp hb with h1 | h2
  · exact h b h1
  · have := List.eq_of_mem_replicate h2
    omega

/-- Unpadding inverts padding. -/
theorem pkcs7Unpad_pad (bs : List Nat) : pkcs7Unpad (pkcs7Pad bs) = some bs := by
  have hk : 1 ≤ 16 - bs.length % 16 ∧ 16 - bs.length % 16 ≤ 16 := by
    have := Nat.mod_lt bs.length (show 0 < 16 by norm_num)
    omega
  set k := 16 - bs.length % 16 with hkdef
  have hrep : List.replicate k k ≠ [] := by
    simp [List.replicate_eq_nil_iff]
    omega
  have hlast : (pkcs7Pad bs).getLast? = some k := by
    show (bs ++ List.replicate k k).getLast? = some k
    rw [List.getLast?_append_of_ne_nil bs hrep]
    cases hkk : k with
    | zero => omega
    | succ j =>
      rw [List.replicate_succ', List.getLast?_concat]
  have hlen : (pkcs7Pad bs).length = bs.length + k := by
    simp [pkcs7Pad]
  have hdrop : (pkcs7Pad bs).drop ((pkcs7Pad bs).length - k) = List.replicate k k := by
    rw [hlen]
    show (bs ++ List.replicate k k).drop (bs.length + k - k) = _
    rw [Nat.add_sub_cancel]
    exact List.drop_left bs _
  have htake : (pkcs7Pad bs).take ((pkcs7Pad bs).length - k) = bs := by
    rw [hlen]
    show (bs ++ List.replicate k k).take (bs.length + k - k) = _
    rw [Nat.add_sub_cancel]
    exact List.take_left bs _
  have hall : (((pkcs7Pad bs).drop ((pkcs7Pad bs).length - k)).all fun b => decide (b = k)) = true := by
    rw [hdrop]
    simp only [List.all_eq_true, decide_eq_true_eq]
    intro b hb
    exact List.eq_of_mem_replicate hb
  rw [pkcs7Unpad, hlast]
  dsimp only
  rw [if_pos ⟨hk.1, hk.2, by omega, hall⟩, htake]

/-! ## Block cipher and CBC lemmas -/

/-- The modelled block cipher decrypts what it encrypts. -/
theorem blockDec_blockEnc (key b : List Nat) (hlen : b.length = key.length)
    (hb : ∀ x ∈ b, x < 256) (hk : ∀ x ∈ key, x < 256) :
    blockDec key (blockEnc key b) = b := by
  induction b generalizing key with
  | nil => cases key <;> rfl
  | cons x xs ih =>
    cases key with
    | nil => simp at hlen
    | cons c cs =>
      show ((x + c) % 256 + 256 - c % 256) % 256 :: blockDec cs (blockEnc cs xs) = x :: xs
      have hx : x < 256 := hb x (by simp)
      have hc : c < 256 := hk c (by simp)
      have : ((x + c) % 256 + 256 - c % 256) % 256 = x := by omega
      rw [this, ih cs (by simpa using hlen) (fun y hy => hb y (by simp [hy]))
        (fun y hy => hk y (by simp [hy]))]

/-- XOR with the same block twice is the identity. -/
theorem xorBlock_xorBlock (b p : List Nat) (h : b.length = p.length) :
    xorBlock (xorBlock b p) p = b := by
  induction b generalizing p with
  | nil => cases p <;> rfl
  | cons x xs ih =>
    cases p with
    | nil => simp at h
    | cons y ys =>
      show (x ^^^ y ^^^ y) :: xorBlock (xorBlock xs ys) ys = x :: xs
      rw [Nat.xor_cancel_right, ih ys (by simpa using h)]

/-- Lengths through the cipher and XOR. -/
theorem blockEnc_length (key b : List Nat) :
    (blockEnc key b).length = min b.length key.length := by
  simp [blockEnc]

/-- XOR block length. -/
theorem xorBlock_length (a b : List Nat) :
    (xorBlock a b).length = min a.length b.length := by
  simp [xorBlock]

/-- Cipher output bytes are below 256. -/
theorem blockEnc_lt_256 (key b : List Nat) : ∀ x ∈ blockEnc key b, x < 256 := by
  induction b generalizing key with
  | nil => simp [blockEnc]
  | cons x xs ih =>
    cases key with
    | nil => simp [blockEnc]
    | cons c cs =>
      intro y hy
      rcases List.mem_cons.mp hy with h1 | h2
      · subst h1
        exact Nat.mod_lt _ (by norm_num)
      · exact ih cs y h2

/-- XOR of bytes is a byte. -/
theorem xorBlock_lt_256 (a b : List Nat) (ha : ∀ x ∈ a, x < 256) (hb : ∀ x ∈ b, x < 256) :
    ∀ x ∈ xorBlock a b, x < 256 := by
  induction a generalizing b with
  | nil => simp [xorBlock]
  | cons x xs ih =>
    cases b with
    | nil => simp [xorBlock]
    | cons c cs =>
      intro y hy
      rcases List.mem_cons.mp hy with h1 | h2
      · subst h1
        have h1 : x < 2 ^ 8 := ha x (by simp)
        have h2 : c < 2 ^ 8 := hb c (by simp)
        exact Nat.xor_lt_two_pow h1 h2
      · exact ih cs (fun z hz => ha z (by simp [hz])) (fun z hz => hb z (by simp [hz])) y h2

/-- CBC decryption inverts CBC encryption. -/
theorem cbcDec_cbcEnc (key : List Nat) (hkey : key.length = 16)
    (hkb : ∀ x ∈ key, x < 256) :
    ∀ (blocks : List (List Nat)) (prev : List Nat), prev.length = 16 →
      (∀ x ∈ prev, x < 256) →
      (∀ blk ∈ blocks, blk.length = 16 ∧ ∀ x ∈ blk, x < 256) →
      cbcDecBlocks key prev (cbcEncBlocks key prev blocks) = blocks := by
  intro blocks
  induction blocks with
  | nil => intro prev _ _ _; rfl
  | cons b bs ih =>
    intro prev hprev hprevb hblocks
    obtain ⟨hblen, hbb⟩ := hblocks b (by simp)
    have hxlen : (xorBlock b prev).length = 16 := by
      rw [xorBlock_length, hblen, hprev]; rfl
    have hxb : ∀ x ∈ xorBlock b prev, x < 256 := xorBlock_lt_256 b prev hbb hprevb
    have hclen : (blockEnc key (xorBlock b prev)).length = 16 := by
      rw [blockEnc_length, hxlen, hkey]; rfl
    have hcb : ∀ x ∈ blockEnc key (xorBlock b prev), x < 256 := blockEnc_lt_256 _ _
    show xorBlock (blockDec key (blockEnc key (xorBlock b prev))) prev ::
      cbcDecBlocks key (blockEnc key (xorBlock b prev))
        (cbcEncBlocks key (blockEnc key (xorBlock b prev)) bs) = b :: bs
    rw [blockDec_blockEnc key (xorBlock b prev) (by rw [hxlen, hkey]) hxb hkb,
      xorBlock_xorBlock b prev (by rw [hblen, hprev]),
      ih (blockEnc key (xorBlock b prev)) hclen hcb
        (fun blk hblk => hblocks blk (by simp [hblk]))]

/-- Lengths of CBC ciphertext blocks. -/
theorem cbcEncBlocks_blocks (key : List Nat) (hkey : key.length = 16) :
    ∀ (blocks : List (List Nat)) (prev : List Nat), prev.length = 16 →
      (∀ blk ∈ blocks, blk.length = 16) →
      ∀ cb ∈ cbcEncBlocks key prev blocks, cb.length = 16 ∧ ∀ x ∈ cb, x < 256 := by
  intro blocks
  induction blocks with
  | nil => intro prev _ _ cb hcb; cases hcb
  | cons b bs ih =>
    intro prev hprev hblocks cb hcb
    have hblen : b.length = 16 := hblocks b (by simp)
    have hclen : (blockEnc key (xorBlock b prev)).length = 16 := by
      rw [blockEnc_length, xorBlock_length, hblen, hprev, hkey]
      simp
    rcases List.mem_cons.mp hcb with h1 | h2
    · subst h1
      exact ⟨hclen, blockEnc_lt_256 _ _⟩
    · exact ih _ hclen (fun blk hblk => hblocks blk (by simp [hblk])) cb h2

/-! ## Chunking lemmas -/

/-- `chunk16` of the empty list. -/
theorem chunk16_nil : chunk16 [] = [] := by
  rw [chunk16]

/-- Unfolding `chunk16` on a non-empty list. -/
theorem chunk16_cons (l : List Nat) (h : l ≠ []) :
    chunk16 l = l.take 16 :: chunk16 (l.drop 16) := by
  cases l with
  | nil => exact absurd rfl h
  | cons a as => rw [chunk16]

/-- Chunking the concatenation of 16-byte blocks recovers the blocks. -/
theorem chunk16_flatten (blocks : List (List Nat))
    (h : ∀ blk ∈ blocks, blk.length = 16) : chunk16 blocks.flatten = blocks := by
  induction blocks with
  | nil => simpa using chunk16_nil
  | cons b bs ih =>
    have hblen : b.length = 16 := h b (by simp)
    have hbne : b ≠ [] := by
      intro he; rw [he] at hblen; simp at hblen
    rw [List.flatten_cons, chunk16_cons (b ++ bs.flatten)
      (by simp [hbne])]
    have ht : (b ++ bs.flatten).take 16 = b := by
      rw [← hblen]; exact List.take_left b _
    have hd : (b ++ bs.flatten).drop 16 = bs.flatten := by
      rw [← hblen]; exact List.drop_left b _
    rw [ht, hd, ih (fun blk hblk => h blk (by simp [hblk]))]

/-- All chunks of a block-aligned byte string are 16 bytes long. -/
theorem chunk16_length_blocks (n : Nat) : ∀ l : List Nat, l.length ≤ n → l.length % 16 = 0 →
    ∀ blk ∈ chunk16 l, blk.length = 16 := by
  induction n with
  | zero =>
    intro l hl _ blk hblk
    have : l = [] := List.eq_nil_of_length_eq_zero (by omega)
    subst this
    rw [chunk16_nil] at hblk
    cases hblk
  | succ m ih =>
    intro l hl hmod blk hblk
    cases hle : l with
    | nil => subst hle; rw [chunk16_nil] at hblk; cases hblk
    | cons a as =>
      subst hle
      rw [chunk16_cons _ (by simp)] at hblk
      have hlen16 : 16 ≤ (a :: as).length := by
        rcases Nat.lt_or_ge (a :: as).length 16 with hlt | hge
        · exfalso
          rw [Nat.mod_eq_of_lt hlt] at hmod
          simp only [List.length_cons] at hmod
          omega
        · exact hge
      simp only [List.length_cons] at hlen16 hl hmod
      rcases List.mem_cons.mp hblk with h1 | h2
      · subst h1
        rw [List.length_take]
        simp only [List.length_cons]
        omega
      · refine ih ((a :: as).drop 16) ?_ ?_ blk h2
        · rw [List.length_drop]
          simp only [List.length_cons]
          omega
        · rw [List.length_drop]
          simp only [List.length_cons]
          omega

/-- Flattening the chunks recovers the list. -/
theorem chunk16_join (n : Nat) : ∀ l : List Nat, l.length ≤ n →
    (chunk16 l).flatten = l := by
  induction n with
  | zero =>
    intro l hl
    have : l = [] := List.eq_nil_of_length_eq_zero (by omega)
    subst this
    rw [chunk16_nil]
    rfl
  | succ m ih =>
    intro l hl
    cases hle : l with
    | nil => rw [chunk16_nil]; rfl
    | cons a as =>
      subst hle
      rw [chunk16_cons _ (by simp), List.flatten_cons,
        ih ((a :: as).drop 16) (by rw [List.length_drop]; simp only [List.length_cons] at hl ⊢; omega)]
      exact List.take_append_drop 16 (a :: as)

/-! ## Byte-structure lemmas for the hash, timestamp and key fields -/

/-- The 32-byte image has length 32. -/
theorem natToBytes32_length (n : Nat) : (natToBytes32 n).length = 32 := by
  simp [natToBytes32]

/-- The 32-byte image consists of bytes. -/
theorem natToBytes32_lt_256 (n : Nat) : ∀ b ∈ natToBytes32 n, b < 256 := by
  intro b hb
  simp only [natToBytes32, List.mem_map] at hb
  obtain ⟨i, _, rfl⟩ := hb
  exact Nat.mod_lt _ (by norm_num)

/-- HMAC tags are 32 bytes long. -/
theorem hmacBytes_length (key msg : List Nat) : (hmacBytes key msg).length = 32 :=
  natToBytes32_length _

/-- HMAC tag bytes are below 256. -/
theorem hmacBytes_lt_256 (key msg : List Nat) : ∀ b ∈ hmacBytes key msg, b < 256 :=
  natToBytes32_lt_256 _

/-- The timestamp field is 8 bytes long. -/
theorem ts8_length (ts : Nat) : (ts8 ts).length = 8 := by
  simp [ts8]

/-- Timestamp field bytes are below 256. -/
theorem ts8_lt_256 (ts : Nat) : ∀ b ∈ ts8 ts, b < 256 := by
  intro b hb
  simp only [ts8, List.mem_map] at hb
  obtain ⟨i, _, rfl⟩ := hb
  exact Nat.mod_lt _ (by norm_num)

/-- The raw derived key is exactly 32 bytes. -/
theorem pbkdf2Raw_length (password salt : List Nat) :
    (pbkdf2Raw password salt).length = 32 :=
  natToBytes32_length _

/-- Raw derived-key bytes are below 256. -/
theorem pbkdf2Raw_lt_256 (password salt : List Nat) :
    ∀ b ∈ pbkdf2Raw password salt, b < 256 :=
  natToBytes32_lt_256 _

/-- Flattening 16-byte blocks gives a block-aligned length. -/
theorem flatten_blocks_length (blocks : List (List Nat))
    (h : ∀ blk ∈ blocks, blk.length = 16) :
    blocks.flatten.length = 16 * blocks.length := by
  induction blocks with
  | nil => rfl
  | cons b bs ih =>
    rw [List.flatten_cons, List.length_append, h b (by simp),
      ih (fun blk hblk => h blk (by simp [hblk]))]
    simp
    ring

/-- Flattening preserves byte bounds. -/
theorem flatten_lt_256 (blocks : List (List Nat))
    (h : ∀ blk ∈ blocks, ∀ x ∈ blk, x < 256) :
    ∀ x ∈ blocks.flatten, x < 256 := by
  intro x hx
  obtain ⟨blk, hblk, hxblk⟩ := List.mem_flatten.mp hx
  exact h blk hblk x hxblk

/-- Chunk elements come from the chunked list. -/
theorem chunk16_mem_subset (l blk : List Nat) (x : Nat) (hblk : blk ∈ chunk16 l)
    (hx : x ∈ blk) : x ∈ l := by
  have hj := chunk16_join l.length l (le_refl _)
  rw [← hj]
  exact List.mem_flatten.mpr ⟨blk, hblk, hx⟩

/-! ## Fernet codec lemmas -/

/-- Base64-decoding a fresh token recovers `payload ‖ tag`. -/
theorem fernet_token_data (k iv : List Nat) (ts : Nat) (pt : List Nat)
    (hk : k.length = 32) (hkb : ∀ x ∈ k, x < 256)
    (hiv : iv.length = 16) (hivb : ∀ x ∈ iv, x < 256)
    (hpt : ∀ x ∈ pt, x < 256) :
    urlsafeB64decode (fernetEncryptBytes k iv ts pt) =
      some (fernetPayload k iv ts pt ++
        hmacBytes (fernetSigningKey k) (fernetPayload k iv ts pt)) := by
  apply urlsafeB64decode_encode
  intro x hx
  rcases List.mem_append.mp hx with h1 | h2
  · rcases List.mem_cons.mp h1 with h0 | hrest
    · omega
    · rcases List.mem_append.mp hrest with ha | hd
      · rcases List.mem_append.mp ha with hb | hc
        · exact ts8_lt_256 ts x hb
        · exact hivb x hc
      · refine flatten_lt_256 _ ?_ x hd
        intro blk hblk y hy
        exact (cbcEncBlocks_blocks (fernetEncryptionKey k)
          (by simp [fernetEncryptionKey, hk]) _ iv hiv
          (chunk16_length_blocks (pkcs7Pad pt).length _ (le_refl _)
            (pkcs7Pad_length_mod pt)) blk hblk).2 y hy
  · exact hmacBytes_lt_256 _ _ x h2

/-- CBC encryption keeps the block count. -/
theorem cbcEncBlocks_length (key : List Nat) :
    ∀ (blocks : List (List Nat)) (prev : List Nat),
      (cbcEncBlocks key prev blocks).length = blocks.length := by
  intro blocks
  induction blocks with
  | nil => intro prev; rfl
  | cons b bs ih =>
    intro prev
    show (cbcEncBlocks key prev (b :: bs)).length = bs.length + 1
    rw [cbcEncBlocks]
    simp only [List.length_cons]
    rw [ih]

/-- Length of the unsigned payload. -/
theorem fernetPayload_length (k iv : List Nat) (ts : Nat) (pt : List Nat)
    (hk : k.length = 32) (hiv : iv.length = 16) :
    (fernetPayload k iv ts pt).length =
      25 + (16 - pt.length % 16 + pt.length) := by
  have hchunklens := chunk16_length_blocks (pkcs7Pad pt).length (pkcs7Pad pt) (le_refl _)
    (pkcs7Pad_length_mod pt)
  have hctlens : ∀ blk ∈ cbcEncBlocks (fernetEncryptionKey k) iv (chunk16 (pkcs7Pad pt)),
      blk.length = 16 := fun blk hblk =>
    (cbcEncBlocks_blocks (fernetEncryptionKey k) (by simp [fernetEncryptionKey, hk])
      _ iv hiv hchunklens blk hblk).1
  show (128 :: (ts8 ts ++ iv ++ _)).length = _
  simp only [List.length_cons, List.length_append, ts8_length, hiv]
  rw [flatten_blocks_length _ hctlens, cbcEncBlocks_length]
  have h16 : 16 * (chunk16 (pkcs7Pad pt)).length = (pkcs7Pad pt).length := by
    rw [← flatten_blocks_length _ hchunklens, chunk16_join (pkcs7Pad pt).length _ (le_refl _)]
  rw [h16, pkcs7Pad_length]
  omega

/-- The Fernet decoder on a freshly produced token, with possibly a
different verification key `k2`: it dissects the token exactly and fails
with `InvalidToken` precisely when the recomputed tag differs, otherwise
decrypts with `k2`'s cipher subkey. -/
theorem fernetDecrypt_encrypt_dissect (k1 k2 iv : List Nat) (ts : Nat) (pt : List Nat)
    (hk1 : k1.length = 32) (hk1b : ∀ x ∈ k1, x < 256)
    (hiv : iv.length = 16) (hivb : ∀ x ∈ iv, x < 256)
    (hpt : ∀ x ∈ pt, x < 256) :
    fernetDecryptBytes k2 (fernetEncryptBytes k1 iv ts pt) =
      (if hmacBytes (fernetSigningKey k2) (fernetPayload k1 iv ts pt) ≠
          hmacBytes (fernetSigningKey k1) (fernetPayload k1 iv ts pt) then
        Except.error PyErr.invalidToken
      else
        match pkcs7Unpad ((cbcDecBlocks (fernetEncryptionKey k2) iv
            (chunk16 ((cbcEncBlocks (fernetEncryptionKey k1) iv
              (chunk16 (pkcs7Pad pt))).flatten))).flatten) with
        | none => Except.error PyErr.invalidToken
        | some out => Except.ok out) := by
  have henckeylen : (fernetEncryptionKey k1).length = 16 := by
    simp [fernetEncryptionKey, hk1]
  have hctblocks := cbcEncBlocks_blocks (fernetEncryptionKey k1) henckeylen
    (chunk16 (pkcs7Pad pt)) iv hiv
    (chunk16_length_blocks (pkcs7Pad pt).length _ (le_refl _) (pkcs7Pad_length_mod pt))
  set ct := (cbcEncBlocks (fernetEncryptionKey k1) iv (chunk16 (pkcs7Pad pt))).flatten
    with hctdef
  set payload := fernetPayload k1 iv ts pt with hpayloaddef
  set tag := hmacBytes (fernetSigningKey k1) payload with htagdef
  have hctmod : ct.length % 16 = 0 := by
    rw [hctdef, flatten_blocks_length _ (fun blk hblk => (hctblocks blk hblk).1)]
    omega
  have htaglen : tag.length = 32 := hmacBytes_length _ _
  have hpayshape : payload = 128 :: (ts8 ts ++ (iv ++ ct)) := by
    rw [hpayloaddef]
    show 128 :: (ts8 ts ++ iv ++ ct) = _
    rw [List.append_assoc]
  have hdata : payload ++ tag = 128 :: (ts8 ts ++ (iv ++ (ct ++ tag))) := by
    rw [hpayshape]
    simp [List.append_assoc]
  have hdatalen : (payload ++ tag).length = payload.length + 32 := by
    rw [List.length_append, htaglen]
  have hpaylen : payload.length = 25 + ct.length := by
    rw [hpayshape]
    simp [ts8_length, hiv]
    omega
  have htake : (payload ++ tag).take ((payload ++ tag).length - 32) = payload := by
    rw [hdatalen, Nat.add_sub_cancel]
    exact List.take_left payload tag
  have hdroptag : (payload ++ tag).drop ((payload ++ tag).length - 32) = tag := by
    rw [hdatalen, Nat.add_sub_cancel]
    exact List.drop_left payload tag
  have hiv25 : ((payload ++ tag).drop 9).take 16 = iv := by
    rw [hdata]
    have h1 : (128 :: (ts8 ts ++ (iv ++ (ct ++ tag)))).drop 9 =
        (ts8 ts ++ (iv ++ (ct ++ tag))).drop 8 := rfl
    rw [h1, show (8 : Nat) = (ts8 ts).length from (ts8_length ts).symm,
      List.drop_left (ts8 ts) _,
      show (16 : Nat) = iv.length from hiv.symm, List.take_left iv _]
  have hct25 : payload.drop 25 = ct := by
    rw [hpayshape]
    have h1 : (128 :: (ts8 ts ++ (iv ++ ct))).drop 25 =
        (ts8 ts ++ (iv ++ ct)).drop 24 := rfl
    rw [h1, ← List.append_assoc,
      show (24 : Nat) = (ts8 ts ++ iv).length from (by simp [ts8_length, hiv]),
      List.drop_left (ts8 ts ++ iv) ct]
  show fernetDecryptBytes k2 (b64urlEncode (payload ++ tag)) = _
  rw [fernetDecryptBytes]
  rw [show urlsafeB64decode (b64urlEncode (payload ++ tag)) = some (payload ++ tag) from
    fernet_token_data k1 iv ts pt hk1 hk1b hiv hivb hpt]
  rw [hdata]
  dsimp only
  rw [← hdata]
  rw [if_neg (by norm_num)]
  rw [if_neg (by rw [hdatalen]; omega)]
  rw [htake, hdroptag, hiv25, hct25]
  by_cases htag : hmacBytes (fernetSigningKey k2) payload ≠ tag
  · rw [if_pos htag, if_pos htag]
  · rw [if_neg htag, if_neg htag, if_neg (by rw [hctmod]; norm_num)]

/-- Fernet decryption inverts Fernet encryption under the same key. -/
theorem fernetDecrypt_fernetEncrypt (k iv : List Nat) (ts : Nat) (pt : List Nat)
    (hk : k.length = 32) (hkb : ∀ x ∈ k, x < 256)
    (hiv : iv.length = 16) (hivb : ∀ x ∈ iv, x < 256)
    (hpt : ∀ x ∈ pt, x < 256) :
    fernetDecryptBytes k (fernetEncryptBytes k iv ts pt) = .ok pt := by
  rw [fernetDecrypt_encrypt_dissect k k iv ts pt hk hkb hiv hivb hpt,
    if_neg (not_not_intro rfl)]
  have henckeylen : (fernetEncryptionKey k).length = 16 := by
    simp [fernetEncryptionKey, hk]
  have henckeybytes : ∀ x ∈ fernetEncryptionKey k, x < 256 := by
    intro x hx
    exact hkb x (List.mem_of_mem_drop hx)
  have hchunklens := chunk16_length_blocks (pkcs7Pad pt).length (pkcs7Pad pt) (le_refl _)
    (pkcs7Pad_length_mod pt)
  have hchunkbytes : ∀ blk ∈ chunk16 (pkcs7Pad pt), ∀ x ∈ blk, x < 256 :=
    fun blk hblk x hx =>
      pkcs7Pad_lt_256 pt hpt x (chunk16_mem_subset _ _ _ hblk hx)
  have hencblocks := cbcEncBlocks_blocks (fernetEncryptionKey k) henckeylen
    (chunk16 (pkcs7Pad pt)) iv hiv hchunklens
  rw [chunk16_flatten _ (fun blk hblk => (hencblocks blk hblk).1),
    cbcDec_cbcEnc (fernetEncryptionKey k) henckeylen henckeybytes
      (chunk16 (pkcs7Pad pt)) iv hiv hivb
      (fun blk hblk => ⟨hchunklens blk hblk, hchunkbytes blk hblk⟩),
    chunk16_join (pkcs7Pad pt).length _ (le_refl _), pkcs7Unpad_pad]

/-- Decoding a fresh token under a key whose recomputed MAC tag differs
fails with `InvalidToken`. -/
theorem fernetDecrypt_wrong_tag (k1 k2 iv : List Nat) (ts : Nat) (pt : List Nat)
    (hk1 : k1.length = 32) (hk1b : ∀ x ∈ k1, x < 256)
    (hiv : iv.length = 16) (hivb : ∀ x ∈ iv, x < 256)
    (hpt : ∀ x ∈ pt, x < 256)
    (htag : hmacBytes (fernetSigningKey k2) (fernetPayload k1 iv ts pt) ≠
      hmacBytes (fernetSigningKey k1) (fernetPayload k1 iv ts pt)) :
    fernetDecryptBytes k2 (fernetEncryptBytes k1 iv ts pt) = .error .invalidToken := by
  rw [fernetDecrypt_encrypt_dissect k1 k2 iv ts pt hk1 hk1b hiv hivb hpt, if_pos htag]

/-- If decoding a fresh token under another key succeeds, the recomputed
MAC tag must coincide with the token's stored tag. -/
theorem fernetDecrypt_ok_tag (k1 k2 iv : List Nat) (ts : Nat) (pt out : List Nat)
    (hk1 : k1.length = 32) (hk1b : ∀ x ∈ k1, x < 256)
    (hiv : iv.length = 16) (hivb : ∀ x ∈ iv, x < 256)
    (hpt : ∀ x ∈ pt, x < 256)
    (h : fernetDecryptBytes k2 (fernetEncryptBytes k1 iv ts pt) = .ok out) :
    hmacBytes (fernetSigningKey k2) (fernetPayload k1 iv ts pt) =
      hmacBytes (fernetSigningKey k1) (fernetPayload k1 iv ts pt) := by
  by_contra htag
  rw [fernetDecrypt_wrong_tag k1 k2 iv ts pt hk1 hk1b hiv hivb hpt htag] at h
  exact Except.noConfusion h

/-- Token characters are ASCII (base64 alphabet plus padding). -/
theorem fernetEncryptBytes_lt_128 (k iv : List Nat) (ts : Nat) (pt : List Nat) :
    ∀ c ∈ fernetEncryptBytes k iv ts pt, c < 128 :=
  b64urlEncode_lt_128 _

/-- A successful key validation yields 32 key bytes. -/
theorem fernetKeyBytes_ok (key k : List Nat) (h : fernetKeyBytes key = .ok k) :
    k.length = 32 ∧ ∀ x ∈ k, x < 256 := by
  rw [fernetKeyBytes] at h
  cases hdec : urlsafeB64decode key with
  | none => rw [hdec] at h; exact Except.noConfusion h
  | some kb =>
    rw [hdec] at h
    dsimp only at h
    split_ifs at h with hlen
    obtain rfl := Except.ok.inj h
    exact ⟨hlen, urlsafeB64decode_lt_256 key _ hdec⟩

/-- A successful string-key validation yields 32 key bytes. -/
theorem fernetKeyOfStr_ok (key k : List Nat) (h : fernetKeyOfStr key = .ok k) :
    k.length = 32 ∧ ∀ x ∈ k, x < 256 := by
  rw [fernetKeyOfStr] at h
  split_ifs at h with hascii
  exact fernetKeyBytes_ok key k h

/-- The derived key always passes Fernet's key validation and decodes to
the 32 raw PBKDF2 bytes. -/
theorem fernetKeyBytes_deriveKey (secretBytes salt : List Nat) :
    fernetKeyBytes (deriveKey secretBytes salt) = .ok (pbkdf2Raw secretBytes salt) := by
  rw [fernetKeyBytes, deriveKey,
    urlsafeB64decode_encode _ (pbkdf2Raw_lt_256 secretBytes salt)]
  dsimp only
  rw [if_pos (pbkdf2Raw_length secretBytes salt)]

/-! ## Service-level lemmas -/

/-- `encrypt` under a valid key produces the Fernet token as a string. -/
theorem encrypt_ok (secret : List Nat) (iv : List Nat) (ts : Nat) (P k : List Nat)
    (hkey : fernetKeyOfStr secret = .ok k) :
    encrypt ⟨secret⟩ iv ts P = .ok (fernetEncryptBytes k iv ts (utf8Encode P)) := by
  rw [encrypt]
  show (match fernetKeyOfStr secret with
    | Except.error e => Except.error e
    | Except.ok k => match utf8Decode (fernetEncryptBytes k iv ts (utf8Encode P)) with
      | none => Except.error PyErr.unicodeDecodeError
      | some t => Except.ok t) = _
  rw [hkey]
  dsimp only
  rw [utf8Decode_ascii _ (fernetEncryptBytes_lt_128 k iv ts (utf8Encode P))]

/-- `decrypt` of a fresh token under the same valid key recovers the
plaintext. -/
theorem decrypt_encrypt_ok (secret : List Nat) (iv : List Nat) (ts : Nat) (P k : List Nat)
    (hkey : fernetKeyOfStr secret = .ok k)
    (hP : ∀ c ∈ P, isScalar c = true)
    (hiv : iv.length = 16) (hivb : ∀ x ∈ iv, x < 256) :
    decrypt ⟨secret⟩ (fernetEncryptBytes k iv ts (utf8Encode P)) = .ok P := by
  obtain ⟨hklen, hkb⟩ := fernetKeyOfStr_ok secret k hkey
  rw [decrypt]
  show (match fernetKeyOfStr secret with
    | Except.error e => Except.error e
    | Except.ok k2 => match fernetDecryptBytes k2
        (utf8Encode (fernetEncryptBytes k iv ts (utf8Encode P))) with
      | Except.error e => Except.error e
      | Except.ok pt => match utf8Decode pt with
        | none => Except.error PyErr.unicodeDecodeError
        | some s => Except.ok s) = _
  rw [hkey]
  dsimp only
  rw [utf8Encode_ascii _ (fun c hc =>
      fernetEncryptBytes_lt_128 k iv ts (utf8Encode P) c hc),
    fernetDecrypt_fernetEncrypt k iv ts (utf8Encode P) hklen hkb hiv hivb
      (utf8Encode_lt_256 P hP)]
  dsimp only
  rw [utf8Decode_utf8Encode P hP]

/-- Reduce `encrypt_for_user` on a decodable salt. -/
theorem encryptForUser_some (secret P S iv : List Nat) (ts : Nat) (sb : List Nat)
    (hs : urlsafeB64decode (utf8Encode S) = some sb) :
    encryptForUser ⟨secret⟩ P S iv ts = userEncryptWithSalt ⟨secret⟩ P sb iv ts := by
  rw [encryptForUser, hs]

/-- Reduce `decrypt_for_user` on a decodable salt. -/
theorem decryptForUser_some (secret T S : List Nat) (sb : List Nat)
    (hs : urlsafeB64decode (utf8Encode S) = some sb) :
    decryptForUser ⟨secret⟩ T S = userDecryptWithSalt ⟨secret⟩ T sb := by
  rw [decryptForUser, hs]

/-- The derived key always validates, so salted encryption always reaches
the codec. -/
theorem userEncryptWithSalt_eq (secret P sb iv : List Nat) (ts : Nat) :
    userEncryptWithSalt ⟨secret⟩ P sb iv ts =
      strOfUtf8 (fernetEncryptBytes (pbkdf2Raw (utf8Encode secret) sb) iv ts
        (utf8Encode P)) := by
  rw [userEncryptWithSalt, fernetKeyBytes_deriveKey, withKeyResult]

/-- ASCII result bytes convert to the same string. -/
theorem strOfUtf8_ascii (bs : List Nat) (h : ∀ b ∈ bs, b < 128) :
    strOfUtf8 bs = .ok bs := by
  rw [strOfUtf8, utf8Decode_ascii bs h]

/-- `encrypt_for_user` with a decodable salt produces the Fernet token
under the derived key. -/
theorem encryptForUser_ok (secret P S iv : List Nat) (ts : Nat) (sb : List Nat)
    (hs : urlsafeB64decode (utf8Encode S) = some sb) :
    encryptForUser ⟨secret⟩ P S iv ts =
      .ok (fernetEncryptBytes (pbkdf2Raw (utf8Encode secret) sb) iv ts (utf8Encode P)) := by
  rw [encryptForUser_some secret P S iv ts sb hs, userEncryptWithSalt_eq,
    strOfUtf8_ascii _ (fernetEncryptBytes_lt_128 _ iv ts (utf8Encode P))]

/-- `decrypt_for_user` with a decodable salt runs the Fernet decoder under
the derived key. -/
theorem decryptForUser_eq (secret tok S : List Nat) (sb : List Nat)
    (hs : urlsafeB64decode (utf8Encode S) = some sb)
    (htok : ∀ c ∈ tok, c < 128) :
    decryptForUser ⟨secret⟩ tok S =
      withDecrypted (fernetDecryptBytes (pbkdf2Raw (utf8Encode secret) sb) tok) := by
  rw [decryptForUser_some secret tok S sb hs, userDecryptWithSalt,
    fernetKeyBytes_deriveKey, withKeyResult, utf8Encode_ascii tok htok]

/-- Salt strings that fail base64 decoding abort both subject-mode
operations with the binascii error, before any key derivation. -/
theorem saltDecodeFailure (secret P T S iv : List Nat) (ts : Nat)
    (hs : urlsafeB64decode (utf8Encode S) = none) :
    encryptForUser ⟨secret⟩ P S iv ts = .error .binasciiError ∧
    decryptForUser ⟨secret⟩ T S = .error .binasciiError := by
  constructor
  · rw [encryptForUser, hs]
  · rw [decryptForUser, hs]

/-- The user-mode round trip at the level of decoded salt bytes: two salt
strings decoding to the same bytes derive the same key, and the token
round-trips. -/
theorem userRoundTripBytes (secret P S1 S2 iv : List Nat) (ts : Nat) (sb : List Nat)
    (h1 : urlsafeB64decode (utf8Encode S1) = some sb)
    (h2 : urlsafeB64decode (utf8Encode S2) = some sb)
    (hP : ∀ c ∈ P, isScalar c = true)
    (hiv : iv.length = 16) (hivb : ∀ x ∈ iv, x < 256) :
    (encryptForUser ⟨secret⟩ P S1 iv ts).bind
      (fun t => decryptForUser ⟨secret⟩ t S2) = .ok P := by
  rw [encryptForUser_ok secret P S1 iv ts sb h1]
  show decryptForUser ⟨secret⟩ _ S2 = _
  rw [decryptForUser_eq secret _ S2 sb h2 (fernetEncryptBytes_lt_128 _ iv ts (utf8Encode P)),
    fernetDecrypt_fernetEncrypt _ iv ts (utf8Encode P) (pbkdf2Raw_length _ _)
      (pbkdf2Raw_lt_256 _ _) hiv hivb (utf8Encode_lt_256 P hP), withDecrypted,
    strOfUtf8, utf8Decode_utf8Encode P hP]

/-- A non-empty secret passes the construction guard. -/
theorem mkHelper_ok (secret : List Nat) (hne : secret ≠ []) :
    mkFernetEncryptionHelper (some secret) = .ok ⟨secret⟩ := by
  rw [mkFernetEncryptionHelper]
  cases secret with
  | nil => exact absurd rfl hne
  | cons a as => rfl

/-- An empty string never validates as a Fernet key (it decodes to zero
bytes, not 32). -/
theorem fernetKeyOfStr_nil : fernetKeyOfStr [] = .error .valueError := by
  decide

/-- A valid Fernet key string is non-empty. -/
theorem fernetKeyOfStr_ok_ne_nil (secret k : List Nat)
    (h : fernetKeyOfStr secret = .ok k) : secret ≠ [] := by
  intro he
  subst he
  rw [fernetKeyOfStr_nil] at h
  exact Except.noConfusion h

/-- Tokens produced with different IVs are different strings, whatever
the timestamps: the IV is embedded at a fixed offset of the signed
payload and base64 encoding is injective. -/
theorem fernetEncryptBytes_iv_inj (k iv1 iv2 : List Nat) (ts1 ts2 : Nat) (pt : List Nat)
    (hk : k.length = 32) (hkb : ∀ x ∈ k, x < 256)
    (hiv1 : iv1.length = 16) (hiv1b : ∀ x ∈ iv1, x < 256)
    (hiv2 : iv2.length = 16) (hiv2b : ∀ x ∈ iv2, x < 256)
    (hpt : ∀ x ∈ pt, x < 256)
    (hne : iv1 ≠ iv2) :
    fernetEncryptBytes k iv1 ts1 pt ≠ fernetEncryptBytes k iv2 ts2 pt := by
  intro h
  have h' : b64urlEncode (fernetPayload k iv1 ts1 pt ++
      hmacBytes (fernetSigningKey k) (fernetPayload k iv1 ts1 pt)) =
    b64urlEncode (fernetPayload k iv2 ts2 pt ++
      hmacBytes (fernetSigningKey k) (fernetPayload k iv2 ts2 pt)) := h
  have hb1 : ∀ x ∈ fernetPayload k iv1 ts1 pt ++
      hmacBytes (fernetSigningKey k) (fernetPayload k iv1 ts1 pt), x < 256 :=
    urlsafeB64decode_lt_256 _ _ (fernet_token_data k iv1 ts1 pt hk hkb hiv1 hiv1b hpt)
  have hb2 : ∀ x ∈ fernetPayload k iv2 ts2 pt ++
      hmacBytes (fernetSigningKey k) (fernetPayload k iv2 ts2 pt), x < 256 :=
    urlsafeB64decode_lt_256 _ _ (fernet_token_data k iv2 ts2 pt hk hkb hiv2 hiv2b hpt)
  have hdata := b64urlEncode_inj _ _ hb1 hb2 h'
  have hplen : (fernetPayload k iv1 ts1 pt).length = (fernetPayload k iv2 ts2 pt).length := by
    rw [fernetPayload_length k iv1 ts1 pt hk hiv1, fernetPayload_length k iv2 ts2 pt hk hiv2]
  have hpay := (List.append_inj hdata hplen).1
  have htail : ts8 ts1 ++ iv1 ++
      (cbcEncBlocks (fernetEncryptionKey k) iv1 (chunk16 (pkcs7Pad pt))).flatten =
    ts8 ts2 ++ iv2 ++
      (cbcEncBlocks (fernetEncryptionKey k) iv2 (chunk16 (pkcs7Pad pt))).flatten := by
    have := List.cons.inj hpay
    exact this.2
  have hlen24 : (ts8 ts1 ++ iv1).length = (ts8 ts2 ++ iv2).length := by
    simp [ts8_length, hiv1, hiv2]
  have hfront := (List.append_inj htail hlen24).1
  have hiveq := (List.append_inj hfront (by rw [ts8_length, ts8_length])).2
  exact hne hiveq

/-- Decoding a fresh cross-salt token fails with `InvalidToken` whenever
the MAC tag recomputed under the second derived key differs from the
token's stored tag. -/
theorem crossSaltTagMismatch (secret P S1 S2 iv : List Nat) (ts : Nat) (sb1 sb2 : List Nat)
    (h1 : urlsafeB64decode (utf8Encode S1) = some sb1)
    (h2 : urlsafeB64decode (utf8Encode S2) = some sb2)
    (hP : ∀ c ∈ P, isScalar c = true)
    (hiv : iv.length = 16) (hivb : ∀ x ∈ iv, x < 256)
    (htag : hmacBytes (fernetSigningKey (pbkdf2Raw (utf8Encode secret) sb2))
        (fernetPayload (pbkdf2Raw (utf8Encode secret) sb1) iv ts (utf8Encode P)) ≠
      hmacBytes (fernetSigningKey (pbkdf2Raw (utf8Encode secret) sb1))
        (fernetPayload (pbkdf2Raw (utf8Encode secret) sb1) iv ts (utf8Encode P))) :
    (encryptForUser ⟨secret⟩ P S1 iv ts).bind
      (fun t => decryptForUser ⟨secret⟩ t S2) = .error .invalidToken := by
  rw [encryptForUser_ok secret P S1 iv ts sb1 h1]
  show decryptForUser ⟨secret⟩ _ S2 = _
  rw [decryptForUser_eq secret _ S2 sb2 h2 (fernetEncryptBytes_lt_128 _ iv ts (utf8Encode P)),
    fernetDecrypt_wrong_tag (pbkdf2Raw (utf8Encode secret) sb1)
      (pbkdf2Raw (utf8Encode secret) sb2) iv ts (utf8Encode P)
      (pbkdf2Raw_length _ _) (pbkdf2Raw_lt_256 _ _) hiv hivb
      (utf8Encode_lt_256 P hP) htag, withDecrypted]

/-! ## Claims -/

/-- C1 (amended): for every Unicode scalar plaintext `P`, any 16-byte IV
draw and any timestamp, a service instance constructed with a Secret that
is a valid Fernet key (URL-safe base64 decoding to exactly 32 bytes)
satisfies `decrypt (encrypt P) = P`. -/
theorem C1_fixed_mode_roundtrip (secret P iv : List Nat) (ts : Nat) (k : List Nat)
    (hkey : fernetKeyOfStr secret = .ok k)
    (hP : ∀ c ∈ P, isScalar c = true)
    (hiv : iv.length = 16) (hivb : ∀ x ∈ iv, x < 256) :
    (mkFernetEncryptionHelper (some secret)).bind
      (fun h => (encrypt h iv ts P).bind (fun t => decrypt h t)) = .ok P := by
  rw [mkHelper_ok secret (fernetKeyOfStr_ok_ne_nil secret k hkey)]
  show (encrypt ⟨secret⟩ iv ts P).bind (fun t => decrypt ⟨secret⟩ t) = _
  rw [encrypt_ok secret iv ts P k hkey]
  show decrypt ⟨secret⟩ _ = _
  exact decrypt_encrypt_ok secret iv ts P k hkey hP hiv hivb

/-- C1 (counterexample): the claim as stated quantifies over every
non-empty Secret; with the non-empty secret "k1" construction succeeds,
yet `decrypt (encrypt "x")` raises `ValueError` from Fernet's key
validation instead of returning "x". -/
theorem C1_counterexample :
    str "k1" ≠ [] ∧
    mkFernetEncryptionHelper (some (str "k1")) = .ok ⟨str "k1"⟩ ∧
    (mkFernetEncryptionHelper (some (str "k1"))).bind
      (fun h => (encrypt h iv0 0 (str "x")).bind (fun t => decrypt h t)) ≠
      .ok (str "x") := by
  refine ⟨by decide, by decide, by decide⟩

/-- C1 (witness): the amended round trip at the 32-zero-byte Fernet key,
plaintext "super-secret", the all-zero IV and timestamp 0. -/
theorem C1_witness :
    fernetKeyOfStr (str "AAAAAAAAAAAAAAAAAAAAAAAAAAAAAAAAAAAAAAAAAAA=") =
      .ok (List.replicate 32 0) ∧
    (mkFernetEncryptionHelper (some (str "AAAAAAAAAAAAAAAAAAAAAAAAAAAAAAAAAAAAAAAAAAA="))).bind
      (fun h => (encrypt h iv0 0 (str "super-secret")).bind (fun t => decrypt h t)) =
      .ok (str "super-secret") :=
  ⟨by decide,
    C1_fixed_mode_roundtrip (str "AAAAAAAAAAAAAAAAAAAAAAAAAAAAAAAAAAAAAAAAAAA=")
      (str "super-secret") iv0 0 (List.replicate 32 0)
      (by decide) (by decide) (by decide) (by decide)⟩

/-- C2: for every Unicode scalar plaintext, every salt string accepted by
Python's base64 decoder, any IV draw and timestamp, the per-subject
operations of an instance constructed with any non-empty Secret satisfy
`decrypt_for_user (encrypt_for_user P S) S = P`. -/
theorem C2_user_roundtrip (secret P S iv : List Nat) (ts : Nat) (sb : List Nat)
    (hsec : secret ≠ [])
    (hs : urlsafeB64decode (utf8Encode S) = some sb)
    (hP : ∀ c ∈ P, isScalar c = true)
    (hiv : iv.length = 16) (hivb : ∀ x ∈ iv, x < 256) :
    (mkFernetEncryptionHelper (some secret)).bind (fun h =>
      (encryptForUser h P S iv ts).bind (fun t => decryptForUser h t S)) = .ok P := by
  rw [mkHelper_ok secret hsec]
  show (encryptForUser ⟨secret⟩ P S iv ts).bind (fun t => decryptForUser ⟨secret⟩ t S) = _
  exact userRoundTripBytes secret P S S iv ts sb hs hs hP hiv hivb

/-- C2 (witness): the per-subject round trip at secret "s3cret", the
16-zero-byte salt and plaintext "user-secret". -/
theorem C2_witness :
    urlsafeB64decode (utf8Encode (str "AAAAAAAAAAAAAAAAAAAAAA==")) =
      some (List.replicate 16 0) ∧
    (mkFernetEncryptionHelper (some (str "s3cret"))).bind (fun h =>
      (encryptForUser h (str "user-secret") (str "AAAAAAAAAAAAAAAAAAAAAA==") iv0 0).bind
        (fun t => decryptForUser h t (str "AAAAAAAAAAAAAAAAAAAAAA=="))) =
      .ok (str "user-secret") :=
  ⟨by decide,
    C2_user_roundtrip (str "s3cret") (str "user-secret") (str "AAAAAAAAAAAAAAAAAAAAAA==")
      iv0 0 (List.replicate 16 0) (by decide) (by decide) (by decide) (by decide) (by decide)⟩

/-- C3 (amended): a salt string rejected by Python's lenient base64
decoder (its alphabet characters do not form complete four-character
groups) makes both subject-mode operations fail with the deterministic
`binascii.Error` before any key material is derived; no `InvalidSaltError`
exists in the code, and salts whose stray characters are merely discarded
decode leniently and derive a full key instead of failing. -/
theorem C3_malformed_salt (secret P T S iv : List Nat) (ts : Nat)
    (hs : urlsafeB64decode (utf8Encode S) = none) :
    encryptForUser ⟨secret⟩ P S iv ts = .error .binasciiError ∧
    decryptForUser ⟨secret⟩ T S = .error .binasciiError :=
  saltDecodeFailure secret P T S iv ts hs

/-- C3 (counterexample): the salt "not-a-base64!!" is not valid base64,
yet `encrypt_for_user` succeeds (Python's decoder discards the `!`
characters and decodes the rest), so no error — in particular no
`InvalidSaltError` — is raised. -/
theorem C3_counterexample :
    (encryptForUser ⟨str "s3cret"⟩ (str "hi") (str "not-a-base64!!") iv0 0).isOk = true := by
  rw [encryptForUser_ok (str "s3cret") (str "hi") (str "not-a-base64!!") iv0 0
    [158, 139, 126, 107, 230, 218, 177, 238, 184] (by decide)]
  rfl

/-- C3 (witness): the salt "abc!" leaves three alphabet characters, which
is not a complete base64 quad, so both operations fail with
`binascii.Error`. -/
theorem C3_witness :
    urlsafeB64decode (utf8Encode (str "abc!")) = none ∧
    encryptForUser ⟨str "kee"⟩ (str "p") (str "abc!") iv0 0 = .error .binasciiError ∧
    decryptForUser ⟨str "kee"⟩ (str "t") (str "abc!") = .error .binasciiError :=
  ⟨by decide,
    (C3_malformed_salt (str "kee") (str "p") (str "t") (str "abc!") iv0 0 (by decide)).1,
    (C3_malformed_salt (str "kee") (str "p") (str "t") (str "abc!") iv0 0 (by decide)).2⟩

/-- C4: constructing the service with an absent (`None`) or empty Secret
fails immediately, in the constructor itself, with
`MissingEncryptionKeyError` — no encrypt or decrypt call is involved. -/
theorem C4_construction_guard (s : Option (List Nat))
    (h : s = none ∨ s = some []) :
    mkFernetEncryptionHelper s = .error .missingEncryptionKeyError := by
  rcases h with rfl | rfl
  · rfl
  · rfl

/-- C4 (witness): both the absent and the empty Secret are rejected at
construction time. -/
theorem C4_witness :
    mkFernetEncryptionHelper none = .error .missingEncryptionKeyError ∧
    mkFernetEncryptionHelper (some []) = .error .missingEncryptionKeyError :=
  ⟨C4_construction_guard none (Or.inl rfl),
    C4_construction_guard (some []) (Or.inr rfl)⟩

/-- C5 (amended): for valid salts `S1`, `S2`: when they decode to the
same salt bytes (possible for distinct strings under Python's lenient
base64) the token is accepted and returns the original plaintext; the
token fails under `S2` with `InvalidTokenError` whenever the MAC tag
recomputed under `S2`'s derived key differs from the stored tag — which
distinct decoded salts achieve except for an HMAC/PBKDF2 collision — and
any acceptance forces those tags to be equal. -/
theorem C5_salt_sensitivity (secret P S1 S2 iv : List Nat) (ts : Nat) (sb1 sb2 : List Nat)
    (h1 : urlsafeB64decode (utf8Encode S1) = some sb1)
    (h2 : urlsafeB64decode (utf8Encode S2) = some sb2)
    (hP : ∀ c ∈ P, isScalar c = true)
    (hiv : iv.length = 16) (hivb : ∀ x ∈ iv, x < 256) :
    (sb1 = sb2 →
      (encryptForUser ⟨secret⟩ P S1 iv ts).bind
        (fun t => decryptForUser ⟨secret⟩ t S2) = .ok P) ∧
    (hmacBytes (fernetSigningKey (pbkdf2Raw (utf8Encode secret) sb2))
        (fernetPayload (pbkdf2Raw (utf8Encode secret) sb1) iv ts (utf8Encode P)) ≠
      hmacBytes (fernetSigningKey (pbkdf2Raw (utf8Encode secret) sb1))
        (fernetPayload (pbkdf2Raw (utf8Encode secret) sb1) iv ts (utf8Encode P)) →
      (encryptForUser ⟨secret⟩ P S1 iv ts).bind
        (fun t => decryptForUser ⟨secret⟩ t S2) = .error .invalidToken) ∧
    (∀ out, (encryptForUser ⟨secret⟩ P S1 iv ts).bind
        (fun t => decryptForUser ⟨secret⟩ t S2) = .ok out →
      hmacBytes (fernetSigningKey (pbkdf2Raw (utf8Encode secret) sb2))
          (fernetPayload (pbkdf2Raw (utf8Encode secret) sb1) iv ts (utf8Encode P)) =
        hmacBytes (fernetSigningKey (pbkdf2Raw (utf8Encode secret) sb1))
          (fernetPayload (pbkdf2Raw (utf8Encode secret) sb1) iv ts (utf8Encode P))) := by
  refine ⟨?_, ?_, ?_⟩
  · intro heq
    subst heq
    exact userRoundTripBytes secret P S1 S2 iv ts sb1 h1 h2 hP hiv hivb
  · intro htag
    exact crossSaltTagMismatch secret P S1 S2 iv ts sb1 sb2 h1 h2 hP hiv hivb htag
  · intro out hout
    by_contra htag
    rw [crossSaltTagMismatch secret P S1 S2 iv ts sb1 sb2 h1 h2 hP hiv hivb htag] at hout
    exact Except.noConfusion hout

/-- C5 (counterexample): "AA==" and "AB==" are distinct valid base64 salt
strings, yet a token produced under "AA==" decrypts successfully under
"AB==" and returns the plaintext instead of raising `InvalidTokenError`:
Python's decoder drops the unused trailing bits, so both salts decode to
the same single zero byte and derive the same key. -/
theorem C5_counterexample :
    str "AA==" ≠ str "AB==" ∧
    urlsafeB64decode (utf8Encode (str "AA==")) = some [0] ∧
    urlsafeB64decode (utf8Encode (str "AB==")) = some [0] ∧
    (encryptForUser ⟨str "s3cret"⟩ (str "hi") (str "AA==") iv0 0).bind
      (fun t => decryptForUser ⟨str "s3cret"⟩ t (str "AB==")) = .ok (str "hi") := by
  refine ⟨by decide, by decide, by decide, ?_⟩
  exact userRoundTripBytes (str "s3cret") (str "hi") (str "AA==") (str "AB==") iv0 0 [0]
    (by decide) (by decide) (by decide) (by decide) (by decide)

/-- C5 (witness): the amended statement at the valid salt "BB==" used on
both sides. -/
theorem C5_witness :
    urlsafeB64decode (utf8Encode (str "BB==")) = some [4] ∧
    ([4] = [4] →
      (encryptForUser ⟨str "sec"⟩ (str "pt") (str "BB==") iv0 0).bind
        (fun t => decryptForUser ⟨str "sec"⟩ t (str "BB==")) = .ok (str "pt")) :=
  ⟨by decide,
    (C5_salt_sensitivity (str "sec") (str "pt") (str "BB==") (str "BB==") iv0 0 [4] [4]
      (by decide) (by decide) (by decide) (by decide) (by decide)).1⟩

/-- C6: the key derivation applies the modelled PBKDF2 (HMAC over a
256-bit hash) with the encoded secret as password and the caller's salt,
iterated exactly 100000 times (hence at least 100000), producing exactly
32 raw bytes that are URL-safe base64 encoded and always accepted by the
codec's key validation as those same 32 bytes.  Determinism is
definitional: `deriveKey` is a pure function of (secret, salt). -/
theorem C6_kdu_parameters (secretBytes salt : List Nat) :
    deriveKey secretBytes salt = b64urlEncode (pbkdf2Raw secretBytes salt) ∧
    (pbkdf2Raw secretBytes salt).length = 32 ∧
    pbkdf2Iterations = 100000 ∧
    100000 ≤ pbkdf2Iterations ∧
    fernetKeyBytes (deriveKey secretBytes salt) = .ok (pbkdf2Raw secretBytes salt) :=
  ⟨rfl, pbkdf2Raw_length _ _, rfl, Nat.le_refl _, fernetKeyBytes_deriveKey _ _⟩

/-- C7: two calls to `encrypt` with the same plaintext under the same
valid key but distinct IV draws (whatever the two timestamps) produce
different tokens, and each token decrypts back to the plaintext. -/
theorem C7_nondeterministic_tokens (secret P iv1 iv2 : List Nat) (ts1 ts2 : Nat)
    (k : List Nat)
    (hkey : fernetKeyOfStr secret = .ok k)
    (hP : ∀ c ∈ P, isScalar c = true)
    (hiv1 : iv1.length = 16) (hiv1b : ∀ x ∈ iv1, x < 256)
    (hiv2 : iv2.length = 16) (hiv2b : ∀ x ∈ iv2, x < 256)
    (hne : iv1 ≠ iv2) :
    encrypt ⟨secret⟩ iv1 ts1 P ≠ encrypt ⟨secret⟩ iv2 ts2 P ∧
    (encrypt ⟨secret⟩ iv1 ts1 P).bind (fun t => decrypt ⟨secret⟩ t) = .ok P ∧
    (encrypt ⟨secret⟩ iv2 ts2 P).bind (fun t => decrypt ⟨secret⟩ t) = .ok P := by
  obtain ⟨hklen, hkb⟩ := fernetKeyOfStr_ok secret k hkey
  refine ⟨?_, ?_, ?_⟩
  · intro h
    rw [encrypt_ok secret iv1 ts1 P k hkey, encrypt_ok secret iv2 ts2 P k hkey] at h
    exact fernetEncryptBytes_iv_inj k iv1 iv2 ts1 ts2 (utf8Encode P) hklen hkb
      hiv1 hiv1b hiv2 hiv2b (utf8Encode_lt_256 P hP) hne (Except.ok.inj h)
  · rw [encrypt_ok secret iv1 ts1 P k hkey]
    show decrypt ⟨secret⟩ _ = _
    exact decrypt_encrypt_ok secret iv1 ts1 P k hkey hP hiv1 hiv1b
  · rw [encrypt_ok secret iv2 ts2 P k hkey]
    show decrypt ⟨secret⟩ _ = _
    exact decrypt_encrypt_ok secret iv2 ts2 P k hkey hP hiv2 hiv2b

/-- C7 (witness): the all-zero IV against the all-one IV under the
32-zero-byte key, plaintext "a". -/
theorem C7_witness :
    iv0 ≠ List.replicate 16 1 ∧
    encrypt ⟨str "AAAAAAAAAAAAAAAAAAAAAAAAAAAAAAAAAAAAAAAAAAA="⟩ iv0 3 (str "a") ≠
      encrypt ⟨str "AAAAAAAAAAAAAAAAAAAAAAAAAAAAAAAAAAAAAAAAAAA="⟩ (List.replicate 16 1) 7 (str "a") :=
  ⟨by decide,
    (C7_nondeterministic_tokens (str "AAAAAAAAAAAAAAAAAAAAAAAAAAAAAAAAAAAAAAAAAAA=")
      (str "a") iv0 (List.replicate 16 1) 3 7 (List.replicate 32 0)
      (by decide) (by decide) (by decide) (by decide) (by decide) (by decide) (by decide)).1⟩

/-- C9: a non-empty secret that is not a valid Fernet key passes
construction unchanged, and then every call to `encrypt` or `decrypt`
fails with the key-validation `ValueError` — the misconfiguration
surfaces on first use, not at construction. -/
theorem C9_invalid_key_first_use (secret : List Nat)
    (hne : secret ≠ [])
    (hbad : fernetKeyOfStr secret = .error .valueError) :
    mkFernetEncryptionHelper (some secret) = .ok ⟨secret⟩ ∧
    (∀ iv ts P, encrypt ⟨secret⟩ iv ts P = .error .valueError) ∧
    (∀ T, decrypt ⟨secret⟩ T = .error .valueError) := by
  refine ⟨mkHelper_ok secret hne, ?_, ?_⟩
  · intro iv ts P
    rw [encrypt]
    show (match fernetKeyOfStr secret with
      | Except.error e => Except.error e
      | Except.ok k => match utf8Decode (fernetEncryptBytes k iv ts (utf8Encode P)) with
        | none => Except.error PyErr.unicodeDecodeError
        | some t => Except.ok t) = _
    rw [hbad]
  · intro T
    rw [decrypt]
    show (match fernetKeyOfStr secret with
      | Except.error e => Except.error e
      | Except.ok k2 => match fernetDecryptBytes k2 (utf8Encode T) with
        | Except.error e => Except.error e
        | Except.ok pt => match utf8Decode pt with
          | none => Except.error PyErr.unicodeDecodeError
          | some s => Except.ok s) = _
    rw [hbad]

/-- C9 (witness): the secret "k1" is non-empty but no Fernet key;
construction succeeds and first use fails. -/
theorem C9_witness :
    str "k1" ≠ [] ∧
    fernetKeyOfStr (str "k1") = .error .valueError ∧
    mkFernetEncryptionHelper (some (str "k1")) = .ok ⟨str "k1"⟩ ∧
    encrypt ⟨str "k1"⟩ iv0 0 (str "x") = .error .valueError ∧
    decrypt ⟨str "k1"⟩ (str "tok") = .error .valueError :=
  ⟨by decide, by decide,
    (C9_invalid_key_first_use (str "k1") (by decide) (by decide)).1,
    (C9_invalid_key_first_use (str "k1") (by decide) (by decide)).2.1 iv0 0 (str "x"),
    (C9_invalid_key_first_use (str "k1") (by decide) (by decide)).2.2 (str "tok")⟩

/-- C10: every operation, run as a state-passing method call, returns the
service instance unchanged — the source methods never assign to `self`
outside `__init__`, and the instance carries no state beyond
`secret_key`. -/
theorem C10_frame (h : FernetEncryptionHelper) (iv P S T salt : List Nat) (ts : Nat) :
    (encryptCall h iv ts P).2 = h ∧
    (decryptCall h T).2 = h ∧
    (encryptForUserCall h P S iv ts).2 = h ∧
    (decryptForUserCall h T S).2 = h ∧
    (deriveKeyCall h salt).2 = h ∧
    (encryptCall h iv ts P).2.secret_key = h.secret_key :=
  ⟨rfl, rfl, rfl, rfl, rfl, rfl⟩

end DevdoxEncryption
